import Mathlib

/-!
# posener/learn: the question bot (`bot/main.go`)

A shallow embedding of `parseBody`, `Question.set` and the update steps of
`main`, with the properties of the specification stated over it.

Go strings are modelled as `List Char`: the issue body reaches the program
through a JSON decoder and is therefore valid UTF-8, so a list of code points
together with its UTF-8 byte length (`utf8Len`) carries everything the code
observes. Library calls (`bufio.Scanner`, `strings.TrimSpace`,
`strings.HasPrefix`, `strings.TrimPrefix`, `strconv.Atoi`) are modelled by
their documented behaviour.
-/

set_option linter.dupNamespace false

namespace Learn

/-! ## Library functions used by `parseBody` -/

/-- Number of bytes of the UTF-8 encoding of a string (Go's `len`). -/
def utf8Len (s : List Char) : Nat :=
  (s.map Char.utf8Size).sum

/-- Go's `unicode.IsSpace`: the Latin-1 spaces `\t \n \v \f \r`, space, U+0085,
U+00A0, and the other code points with the `White_Space` property. -/
def isSpace (c : Char) : Bool :=
  let n := c.toNat
  (0x09 ≤ n && n ≤ 0x0D) || n = 0x20 || n = 0x85 || n = 0xA0 || n = 0x1680 ||
  (0x2000 ≤ n && n ≤ 0x200A) || n = 0x2028 || n = 0x2029 || n = 0x202F ||
  n = 0x205F || n = 0x3000

/-- Go's `strings.TrimSpace`: the string without its leading and trailing
white space. -/
def TrimSpace (s : List Char) : List Char :=
  (s.rdropWhile isSpace).dropWhile isSpace

/-- Go's `strings.HasPrefix`. -/
def HasPrefix (s pre : List Char) : Bool :=
  pre.isPrefixOf s

/-- Go's `strings.TrimPrefix`. -/
def TrimPrefix (s pre : List Char) : List Char :=
  if HasPrefix s pre then s.drop pre.length else s

/-- The constant `bufio.MaxScanTokenSize`: the size of the scanner's buffer,
which has to hold a line together with its terminating newline. -/
def MaxScanTokenSize : Nat := 64 * 1024

/-- The helper `dropCR` of `bufio.ScanLines`: one trailing carriage return is
removed. -/
def dropCR (data : List Char) : List Char :=
  if data.getLast? = some '\r' then data.dropLast else data

/-- The segments of the input between newline characters; the last segment is
what follows the last newline (the whole input when there is none). -/
def splitLines : List Char → List (List Char)
  | [] => [[]]
  | c :: cs =>
    if c = '\n' then [] :: splitLines cs
    else
      match splitLines cs with
      | [] => [[c]]
      | l :: ls => (c :: l) :: ls

/-- The tokens a `bufio.Scanner` with the default split function `ScanLines`
and the default buffer delivers for the given segments: every
newline-terminated line, and a final unterminated line when it is not empty,
each without its trailing `\r`. A line of `MaxScanTokenSize` bytes or more
does not fit the buffer: `Scan` then returns false (`ErrTooLong`) and nothing
after that point is delivered. -/
def scanTokens : List (List Char) → List (List Char)
  | [] => []
  | [l] =>
    if l = [] then []
    else if utf8Len l < MaxScanTokenSize then [dropCR l] else []
  | l :: l' :: rest =>
    if utf8Len l < MaxScanTokenSize then dropCR l :: scanTokens (l' :: rest) else []

/-- The sequence of values `s.Text()` takes in the loop `for s.Scan()` over
`bufio.NewScanner(strings.NewReader(body))`. -/
def scanLines (body : List Char) : List (List Char) :=
  scanTokens (splitLines body)

/-- The value of an ASCII decimal digit. -/
def digitVal (c : Char) : Option Nat :=
  match c with
  | '0' => some 0 | '1' => some 1 | '2' => some 2 | '3' => some 3 | '4' => some 4
  | '5' => some 5 | '6' => some 6 | '7' => some 7 | '8' => some 8 | '9' => some 9
  | _ => none

/-- The digit loop of `strconv.ParseUint` in base 10 over the characters that
remain, `acc` being the value read so far; `none` is a syntax error. -/
def parseDigits : List Char → Nat → Option Nat
  | [], acc => some acc
  | c :: cs, acc =>
    match digitVal c with
    | none => none
    | some d => parseDigits cs (acc * 10 + d)

/-- Base-10 `strconv.ParseUint` without its range check (the check is made by
`Atoi` against the range of `int`): the empty string is a syntax error. -/
def parseUint (s : List Char) : Option Nat :=
  match s with
  | [] => none
  | _ :: _ => parseDigits s 0

/-- Width of Go's `int` on the 64-bit platforms the action runs on. -/
def intSize : Nat := 64

/-- Go's `strconv.Atoi` (`ParseInt(s, 10, 0)`): an optional sign followed by
one or more decimal digits, whose value lies in the range of `int`; `none`
stands for a non-nil error (syntax or range). -/
def Atoi (s : List Char) : Option Int :=
  match s with
  | [] => none
  | c :: cs =>
    let neg : Bool := decide (c = '-')
    let ds := if c = '+' ∨ c = '-' then cs else s
    match parseUint ds with
    | none => none
    | some un =>
      let cutoff := 2 ^ (intSize - 1)
      if !neg && decide (un ≥ cutoff) then none
      else if neg && decide (un > cutoff) then none
      else some (if neg then - (un : Int) else (un : Int))

/-! ## The record and the parser -/

/-- The struct `Question`; `page` is unexported and is not part of the JSON
form. -/
structure Question where
  /-- Field `Question`. -/
  Question : List Char := []
  /-- Field `Options`. -/
  Options : List (List Char) := []
  /-- Field `Answer`. -/
  Answer : Int := 0
  /-- Field `Explain`. -/
  Explain : List Char := []
  /-- Field `page`. -/
  page : List Char := []
  deriving DecidableEq, Repr

/-- The type `state` with its six constants. -/
inductive state where
  | stateNone
  | stateReadQuestion
  | stateReadAnswer
  | stateReadOption
  | stateReadExplain
  | stateReadPage
  deriving DecidableEq, Repr

/-- The two errors `parseBody` builds with `fmt.Errorf`, with the values that
are formatted into the message. -/
inductive ParseError where
  | failedSet (st : state) (currentValue : List Char)
  | unknownInstruction (instruction : List Char)
  deriving DecidableEq, Repr

/-- The method `(*Question).set`; `none` stands for a non-nil error. -/
def Question.set (q : Learn.Question) (st : state) (value : List Char) :
    Option Learn.Question :=
  match st with
  | .stateReadQuestion => some { q with Question := value }
  | .stateReadOption => some { q with Options := q.Options ++ [value] }
  | .stateReadAnswer =>
    match Atoi value with
    | none => none
    | some n => some { q with Answer := n }
  | .stateReadExplain => some { q with Explain := value }
  | .stateReadPage => some { q with page := value }
  | .stateNone => some q

/-- The inner `switch` of `parseBody` on the instruction of a marker line;
`none` is the `default` branch. -/
def nextState (instruction : List Char) : Option state :=
  if instruction = "question".toList then some .stateReadQuestion
  else if HasPrefix instruction "option".toList then some .stateReadOption
  else if instruction = "answer".toList then some .stateReadAnswer
  else if instruction = "explain".toList then some .stateReadExplain
  else if instruction = "page".toList then some .stateReadPage
  else none

/-- The local variables of `parseBody` that live across loop iterations. -/
structure Vars where
  /-- The record `q`. -/
  q : Question
  /-- The variable `state`. -/
  st : state
  /-- The variable `currentValue`. -/
  currentValue : List Char
  deriving DecidableEq, Repr

/-- One iteration of the loop `for s.Scan()` of `parseBody` on the token
`text`. -/
def scanStep (v : Vars) (text : List Char) : Except ParseError Vars :=
  let line := TrimSpace text
  if line = [] then .ok v
  else if HasPrefix line "### ".toList then
    match v.q.set v.st v.currentValue with
    | none => .error (.failedSet v.st v.currentValue)
    | some q =>
      let instruction := TrimPrefix line "### ".toList
      match nextState instruction with
      | none => .error (.unknownInstruction instruction)
      | some st => .ok { q := q, st := st, currentValue := [] }
  else .ok { v with currentValue := v.currentValue ++ line }

/-- The loop `for s.Scan()` of `parseBody` over the tokens of the scanner. The
check `s.Err() != nil` at the top of the body never holds for a token that
`Scan` delivered from a `strings.Reader`; when `Scan` returns false, at the
end of the input or on `ErrTooLong`, the loop ends and the error of the
scanner is not looked at again. -/
def scanLoop : List (List Char) → Vars → Except ParseError Vars
  | [], v => .ok v
  | text :: rest, v =>
    match scanStep v text with
    | .error e => .error e
    | .ok v' => scanLoop rest v'

/-- The statements of `parseBody` after the loop: the last state is set. -/
def finish (r : Except ParseError Vars) : Except ParseError Question :=
  match r with
  | .error e => .error e
  | .ok v =>
    match v.q.set v.st v.currentValue with
    | none => .error (.failedSet v.st v.currentValue)
    | some q => .ok q

/-- The initial values of the local variables of `parseBody`. -/
def initVars : Vars :=
  { q := {}, st := .stateNone, currentValue := [] }

/-- The function `parseBody`. -/
def parseBody (body : List Char) : Except ParseError Question :=
  finish (scanLoop (scanLines body) initVars)


/-! ## Lines of a body -/

/-- A body written line by line: the lines joined by newline characters. -/
def joinLines : List (List Char) → List Char
  | [] => []
  | [l] => l
  | l :: l' :: rest => l ++ '\n' :: joinLines (l' :: rest)

/-- A line fits the scanner's buffer. -/
def fits (l : List Char) : Bool :=
  decide (utf8Len l < MaxScanTokenSize)


/-- A line that does not fit the scanner's buffer: 21846 copies of the
three-byte character U+4E2D, 65538 bytes. -/
def longLine : List Char :=
  List.replicate 21846 '\u4e2d'

/-- A line of white space that does not fit the scanner's buffer: 21846 copies
of the three-byte ideographic space U+3000, 65538 bytes. -/
def longBlankLine : List Char :=
  List.replicate 21846 '\u3000'

/-! ## Markers and sections -/

/-- A marker line: a line that after trimming starts with `### `. -/
def isMarker (l : List Char) : Bool :=
  HasPrefix (TrimSpace l) "### ".toList

/-- The keyword of a marker line: what follows `### ` on the trimmed line. -/
def keyword (l : List Char) : List Char :=
  TrimPrefix (TrimSpace l) "### ".toList

/-- A section of a body: a marker line and the lines up to the next marker
line or the end of the input. -/
structure Section where
  /-- The marker line. -/
  marker : List Char
  /-- The lines that follow the marker line. -/
  content : List (List Char)
  deriving DecidableEq, Repr

/-- The lines of a sequence of sections. -/
def render : List Section → List (List Char)
  | [] => []
  | s :: rest => s.marker :: (s.content ++ render rest)

/-- The accumulated value of the content lines of a section: the trimmed lines
concatenated, nothing in between. -/
def accumulated : List (List Char) → List Char
  | [] => []
  | l :: ls => TrimSpace l ++ accumulated ls

/-- A sequence of sections is well formed: every marker is a marker line and
no content line is one. -/
abbrev WellFormed (secs : List Section) : Prop :=
  ∀ s ∈ secs, isMarker s.marker = true ∧ ∀ l ∈ s.content, isMarker l = false

/-- What `parseBody` does for one section: the inner `switch` on its keyword
when the marker line is met, and `set` on its accumulated value when the
section is closed. -/
def commitSection (q : Question) (s : Section) : Except ParseError Question :=
  match nextState (keyword s.marker) with
  | none => .error (.unknownInstruction (keyword s.marker))
  | some st =>
    match q.set st (accumulated s.content) with
    | none => .error (.failedSet st (accumulated s.content))
    | some q' => .ok q'

/-- The sections of a body committed one after the other. -/
def commitAll : List Section → Question → Except ParseError Question
  | [], q => .ok q
  | s :: rest, q =>
    match commitSection q s with
    | .error e => .error e
    | .ok q' => commitAll rest q'

/-! ## Decimal numerals -/

/-- The value of a sequence of decimal digits, most significant first. -/
def digitsValue (ds : List Nat) : Nat :=
  ds.foldl (fun a d => a * 10 + d) 0

/-- The string `s` is a base-10 integer numeral that denotes `n`: an optional
sign followed by one or more decimal digits. -/
def DecimalForm (s : List Char) (n : Int) : Prop :=
  ∃ ds : List Nat, ds ≠ [] ∧ (∀ d ∈ ds, d < 10) ∧
    ((s = ds.map Nat.digitChar ∧ n = (digitsValue ds : Int)) ∨
     (s = '+' :: ds.map Nat.digitChar ∧ n = (digitsValue ds : Int)) ∨
     (s = '-' :: ds.map Nat.digitChar ∧ n = - (digitsValue ds : Int)))

/-- The integer `n` is a value of Go's 64-bit `int`. -/
def FitsInt (n : Int) : Prop :=
  -(2 : Int) ^ 63 ≤ n ∧ n < (2 : Int) ^ 63

/-- The section is headed by a marker line that `parseBody` maps to the state
`st`. -/
def heads (st : state) (s : Section) : Bool :=
  decide (nextState (keyword s.marker) = some st)

/-- The content lines of the sections whose keyword satisfies `p`, in the
order of their marker lines. -/
def contentOf (p : List Char → Bool) (secs : List Section) : List (List (List Char)) :=
  (secs.filter (fun s => p (keyword s.marker))).map Section.content

/-- The record with the field that the state `st` sets put back to its zero
value. -/
def eraseField (st : state) (q : Question) : Question :=
  match st with
  | .stateReadQuestion => { q with Question := [] }
  | .stateReadAnswer => { q with Answer := 0 }
  | .stateReadExplain => { q with Explain := [] }
  | .stateReadPage => { q with page := [] }
  | .stateReadOption => q
  | .stateNone => q

/-! ## The update steps of `main` -/

/-- What `main` uses of the issue event returned by `goaction.GetIssues`. -/
structure IssuesEvent where
  /-- The value of `issue.GetAction()`. -/
  action : List Char
  /-- The value of `issue.GetLabel().GetName()`. -/
  label : List Char
  /-- The value of `issue.Issue.GetBody()`. -/
  body : List Char
  /-- The value of `issue.GetIssue().GetNumber()`. -/
  number : Int
  /-- The value of `*issue.Issue.ID`. -/
  id : Int
  deriving DecidableEq, Repr

/-- The calls of the closure `fail` in `main`, one constructor per call site
(the message after a failed `GitCommitPush` repeats the text of the encoding
failure). -/
inductive Failure where
  | parse (e : ParseError)
  | openFile (path : List Char)
  | decode (path : List Char)
  | truncate
  | encode
  | gitConfig
  | commitPush
  | closeIssue
  deriving DecidableEq, Repr

/-- The lines `main` writes with `log.Debugf` and `log.Errorf`. -/
inductive LogLine where
  | debugNotCI
  | debugNotIssue
  | errorGetIssues
  | errorNoToken
  | debugIgnoreAction (action : List Char)
  | debugIgnoreLabel (label : List Char)
  | errorFail (f : Failure)
  deriving DecidableEq, Repr

/-- The calls `main` makes to the issue tracker and to the remote repository. -/
inductive Outbound where
  | comment (number : Int) (f : Failure)
  | commitPush (paths : List (List Char)) (id : Int)
  | closeIssue (number : Int)
  deriving DecidableEq, Repr

/-- What `main` can change: the files of the working directory (path and
contents), the outbound calls made so far and the log. -/
structure World where
  /-- The files: path and contents. -/
  files : List (List Char × List Char)
  /-- The outbound calls, oldest first. -/
  outbound : List Outbound
  /-- The log lines, oldest first. -/
  logs : List LogLine
  deriving DecidableEq, Repr

/-- What `main` reads from its environment, and the outcome of the library
calls whose code is not part of the repository. `decode` is
`json.NewDecoder(file).Decode(&questions)` on the contents of the file: the
decoded slice together with the number of bytes the decoder has read from the
file, which is the file offset afterwards; `encode` is the text
`Encoder.Encode` writes with the indentation set by `SetIndent`. -/
structure Env where
  /-- The value of `goaction.CI`. -/
  CI : Bool
  /-- Whether `goaction.Event` is `goaction.EventIssues`. -/
  eventIsIssues : Bool
  /-- The result of `goaction.GetIssues()`; `none` is an error. -/
  getIssues : Option IssuesEvent
  /-- The variable `token`. -/
  token : List Char
  /-- The JSON decoder on the contents of a file. -/
  decode : List Char → Option (List Question × Nat)
  /-- The JSON encoder. -/
  encode : List Question → List Char
  /-- Whether `file.Truncate(0)` returns without error. -/
  truncateOk : Bool
  /-- Whether the write of `e.Encode(questions)` returns without error. -/
  encodeOk : Bool
  /-- Whether `actionutil.GitConfig` returns without error. -/
  gitConfigOk : Bool
  /-- Whether `actionutil.GitCommitPush` returns without error. -/
  gitCommitPushOk : Bool
  /-- Whether `gh.IssuesEdit` returns without error. -/
  issuesEditOk : Bool

/-- The contents of the file at `path`; `none` when there is no such file, in
which case `os.OpenFile(path, os.O_RDWR, 0666)`, called without `O_CREATE`,
returns an error. -/
def lookupFile (files : List (List Char × List Char)) (path : List Char) :
    Option (List Char) :=
  match files with
  | [] => none
  | (p, c) :: rest => if p = path then some c else lookupFile rest path

/-- The files with the contents of the existing file at `path` replaced. -/
def storeFile (files : List (List Char × List Char)) (path : List Char)
    (contents : List Char) : List (List Char × List Char) :=
  match files with
  | [] => []
  | (p, c) :: rest =>
    if p = path then (p, contents) :: rest else (p, c) :: storeFile rest path contents

/-- A `Write` of `data` at the file offset `offset` (lengths in bytes): the
bytes before the offset are kept, a hole between the end of the file and the
offset reads as zero bytes, and bytes after the written range are kept. -/
def writeAt (contents : List Char) (offset : Nat) (data : List Char) : List Char :=
  contents.take offset ++ List.replicate (offset - contents.length) '\x00' ++ data ++
    contents.drop (offset + data.length)

/-- The closure `fail` of `main`: the message is logged and posted as a comment
on the issue, and the process exits with status 1. -/
def fail (issue : IssuesEvent) (w : World) (f : Failure) : World × Nat :=
  ({ w with logs := w.logs ++ [.errorFail f],
            outbound := w.outbound ++ [.comment issue.number f] }, 1)

/-- The statements of `main` after the gate, from the call of `parseBody` to
the end. The file is opened at offset 0, `Decode` leaves the offset after the
bytes it has read, `Truncate(0)` empties the file and leaves the offset where
it is, and `Encode` writes at that offset. `GitConfig` changes no collection
file. When the write of `Encode` fails the file is left empty. -/
def update (env : Env) (issue : IssuesEvent) (w : World) : World × Nat :=
  match parseBody issue.body with
  | .error e => fail issue w (.parse e)
  | .ok newQ =>
    let path := newQ.page ++ ".json".toList
    match lookupFile w.files path with
    | none => fail issue w (.openFile path)
    | some contents =>
      match env.decode contents with
      | none => fail issue w (.decode path)
      | some (decoded, offset) =>
        let questions := decoded ++ [newQ]
        if env.truncateOk = false then fail issue w .truncate
        else
          let w := { w with files := storeFile w.files path [] }
          if env.encodeOk = false then fail issue w .encode
          else
            let w := { w with
              files := storeFile w.files path (writeAt [] offset (env.encode questions)) }
            if env.gitConfigOk = false then fail issue w .gitConfig
            else if env.gitCommitPushOk = false then fail issue w .commitPush
            else
              let w := { w with outbound := w.outbound ++ [.commitPush [path] issue.id] }
              if env.issuesEditOk = false then fail issue w .closeIssue
              else ({ w with outbound := w.outbound ++ [.closeIssue issue.number] }, 0)

/-- The log after the check of the token in `main`: an empty token is logged
as an error and the run goes on. -/
def checkToken (env : Env) (w : World) : World :=
  if env.token = [] then { w with logs := w.logs ++ [.errorNoToken] } else w

/-- The function `main`: the world it leaves and its exit status (0 when it
returns, 1 after `os.Exit(1)`). -/
def main (env : Env) (w : World) : World × Nat :=
  if env.CI = false then ({ w with logs := w.logs ++ [.debugNotCI] }, 0)
  else if env.eventIsIssues = false then ({ w with logs := w.logs ++ [.debugNotIssue] }, 0)
  else
    match env.getIssues with
    | none => ({ w with logs := w.logs ++ [.errorGetIssues] }, 1)
    | some issue =>
      let w := checkToken env w
      if issue.action ≠ "labeled".toList then
        ({ w with logs := w.logs ++ [.debugIgnoreAction issue.action] }, 0)
      else if issue.label ≠ "approved".toList then
        ({ w with logs := w.logs ++ [.debugIgnoreLabel issue.label] }, 0)
      else update env issue w

/-- A sample environment for a run in which every step succeeds: the decoder
accepts the empty JSON array `[]`, reading its two bytes, and rejects all other
contents; the encoder is only used on the resulting one-element slice. -/
def sampleEnv (issue : IssuesEvent) : Env :=
  { CI := true, eventIsIssues := true, getIssues := some issue, token := "t".toList,
    decode := fun c => if c = "[]".toList then some ([], 2) else none,
    encode := fun qs => "[".toList ++ (qs.map (fun q => q.Question)).flatten ++ "]\n".toList,
    truncateOk := true, encodeOk := true, gitConfigOk := true, gitCommitPushOk := true,
    issuesEditOk := true }

/-- A sample event: issue 7 was labeled `approved`, and its body has a question
and the page `exam`. -/
def labeledIssue : IssuesEvent :=
  { action := "labeled".toList, label := "approved".toList,
    body := "### question\nq\n### page\nexam".toList, number := 7, id := 70 }

/-- The record `parseBody` returns for the body of `labeledIssue`. -/
def labeledRecord : Question :=
  { Question := "q".toList, page := "exam".toList }

/-- A sample event that does not pass the gate: issue 7 was opened. -/
def openedIssue : IssuesEvent :=
  { labeledIssue with action := "opened".toList }

/-- A sample world: the collection file `exam.json` holds the empty array. -/
def sampleWorld : World :=
  { files := [("exam.json".toList, "[]".toList)], outbound := [], logs := [] }

theorem splitLines_ne_nil (s : List Char) : splitLines s ≠ [] := by
  cases s with
  | nil => simp [splitLines]
  | cons c cs =>
    unfold splitLines
    split
    · simp
    · split <;> simp

theorem splitLines_of_not_mem (l : List Char) (h : '\n' ∉ l) : splitLines l = [l] := by
  induction l with
  | nil => rfl
  | cons c cs ih =>
    have hc : c ≠ '\n' := fun e => h (by simp [e])
    have hcs : '\n' ∉ cs := fun e => h (by simp [e])
    simp [splitLines, hc, ih hcs]

theorem splitLines_append (l rest : List Char) (h : '\n' ∉ l) :
    splitLines (l ++ '\n' :: rest) = l :: splitLines rest := by
  induction l with
  | nil => simp [splitLines]
  | cons c cs ih =>
    have hc : c ≠ '\n' := fun e => h (by simp [e])
    have hcs : '\n' ∉ cs := fun e => h (by simp [e])
    simp [splitLines, hc, ih hcs]

theorem splitLines_joinLines (ls : List (List Char)) (hne : ls ≠ [])
    (h : ∀ l ∈ ls, '\n' ∉ l) : splitLines (joinLines ls) = ls := by
  induction ls with
  | nil => exact absurd rfl hne
  | cons l rest ih =>
    cases rest with
    | nil => simpa [joinLines] using splitLines_of_not_mem l (h l (by simp))
    | cons l' rest' =>
      have h1 : '\n' ∉ l := h l (by simp)
      have h2 := ih (by simp) (fun x hx => h x (by simp [hx]))
      simp only [joinLines]
      rw [splitLines_append l _ h1, h2]

theorem joinLines_splitLines (s : List Char) : joinLines (splitLines s) = s := by
  induction s with
  | nil => rfl
  | cons c cs ih =>
    unfold splitLines
    split
    · rename_i hc
      rcases hs : splitLines cs with _ | ⟨a, as⟩
      · exact absurd hs (splitLines_ne_nil cs)
      · rw [hs] at ih
        simp [joinLines, hc, ih]
    · rcases hs : splitLines cs with _ | ⟨a, as⟩
      · exact absurd hs (splitLines_ne_nil cs)
      · rw [hs] at ih
        cases as with
        | nil => simpa [joinLines] using ih
        | cons b bs =>
          simp only [joinLines] at ih ⊢
          simp [← ih]

theorem not_mem_of_mem_splitLines (s : List Char) :
    ∀ l ∈ splitLines s, '\n' ∉ l := by
  induction s with
  | nil => simp [splitLines]
  | cons c cs ih =>
    unfold splitLines
    split
    · intro l hl
      rcases List.mem_cons.1 hl with rfl | hl
      · simp
      · exact ih l hl
    · rename_i hc
      rcases hs : splitLines cs with _ | ⟨a, as⟩
      · exact absurd hs (splitLines_ne_nil cs)
      · rw [hs] at ih
        intro l hl
        rcases List.mem_cons.1 hl with rfl | hl
        · intro hm
          rcases List.mem_cons.1 hm with e | hm
          · exact hc e.symm
          · exact ih a (by simp) hm
        · exact ih l (by simp [hl])

/-! ## Trimming -/

theorem isSpace_cr : isSpace '\r' = true := by decide

theorem dropCR_cases (l : List Char) : dropCR l = l ∨ l = dropCR l ++ ['\r'] := by
  unfold dropCR
  split
  · rename_i h
    right
    exact (List.dropLast_append_getLast? '\r' (by simp [h])).symm
  · left; rfl

theorem TrimSpace_dropCR (l : List Char) : TrimSpace (dropCR l) = TrimSpace l := by
  rcases dropCR_cases l with h | h
  · rw [h]
  · conv_rhs => rw [h]
    unfold TrimSpace
    rw [List.rdropWhile_concat_pos _ _ _ isSpace_cr]

theorem TrimSpace_of_all_space (l : List Char) (h : ∀ c ∈ l, isSpace c = true) :
    TrimSpace l = [] := by
  unfold TrimSpace
  have : l.rdropWhile isSpace = [] := by
    rw [List.rdropWhile_eq_nil_iff]
    exact h
  simp [this]

/-! ## The scanner on a body given by its lines -/

theorem scanStep_dropCR (v : Vars) (l : List Char) : scanStep v (dropCR l) = scanStep v l := by
  unfold scanStep
  rw [TrimSpace_dropCR]

theorem scanLoop_append (a b : List (List Char)) (v : Vars) :
    scanLoop (a ++ b) v =
      match scanLoop a v with
      | .error e => .error e
      | .ok v' => scanLoop b v' := by
  induction a generalizing v with
  | nil => simp [scanLoop]
  | cons t ts ih =>
    simp only [List.cons_append, scanLoop]
    cases scanStep v t with
    | error e => rfl
    | ok v' => exact ih v'

theorem scanStep_nil (v : Vars) : scanStep v [] = .ok v := by
  simp [scanStep, TrimSpace]

/-- The loop of `parseBody` sees the lines of the body up to the first line
that does not fit the scanner's buffer. -/
theorem scanLoop_scanLines (ls : List (List Char)) (h : ∀ l ∈ ls, '\n' ∉ l) (v : Vars) :
    scanLoop (scanLines (joinLines ls)) v = scanLoop (ls.takeWhile fits) v := by
  induction ls generalizing v with
  | nil => rfl
  | cons l rest ih =>
    have h1 : '\n' ∉ l := h l (by simp)
    cases rest with
    | nil =>
      simp only [joinLines, scanLines, splitLines_of_not_mem l h1, scanTokens]
      by_cases hl : l = []
      · subst hl
        simp [scanLoop, scanStep_nil, fits, utf8Len, MaxScanTokenSize]
      · by_cases hf : utf8Len l < MaxScanTokenSize
        · simp [hl, hf, fits, scanLoop, scanStep_dropCR]
        · simp [hl, hf, fits, scanLoop]
    | cons l' rest' =>
      have h2 := ih (fun x hx => h x (by simp [hx]))
      simp only [joinLines, scanLines, splitLines_append l _ h1]
      rcases hs : splitLines (joinLines (l' :: rest')) with _ | ⟨a, as⟩
      · exact absurd hs (splitLines_ne_nil _)
      · simp only [scanLines, hs] at h2
        simp only [scanTokens]
        by_cases hf : utf8Len l < MaxScanTokenSize
        · have hf' : fits l = true := by simp [fits, hf]
          rw [if_pos hf, List.takeWhile_cons_of_pos hf']
          simp only [scanLoop, scanStep_dropCR]
          cases scanStep v l with
          | error e => rfl
          | ok v' => exact h2 v'
        · have hf' : fits l = false := by simp [fits, hf]
          rw [if_neg hf, List.takeWhile_cons_of_neg (by simp [hf'])]

/-- The function `parseBody` on a body given by its lines. -/
theorem parseBody_joinLines (ls : List (List Char)) (h : ∀ l ∈ ls, '\n' ∉ l) :
    parseBody (joinLines ls) = finish (scanLoop (ls.takeWhile fits) initVars) := by
  unfold parseBody
  rw [scanLoop_scanLines ls h]

theorem takeWhile_fits_of_all (ls : List (List Char)) (h : ∀ l ∈ ls, fits l = true) :
    ls.takeWhile fits = ls := by
  rw [List.takeWhile_eq_self_iff]
  exact h
/-! ## The parser on sections -/

theorem TrimSpace_ne_nil_of_isMarker (m : List Char) (h : isMarker m = true) :
    TrimSpace m ≠ [] := by
  intro e
  simp [isMarker, e, HasPrefix] at h

theorem scanStep_marker (v : Vars) (m : List Char) (h : isMarker m = true) :
    scanStep v m =
      match v.q.set v.st v.currentValue with
      | none => .error (.failedSet v.st v.currentValue)
      | some q =>
        match nextState (keyword m) with
        | none => .error (.unknownInstruction (keyword m))
        | some st => .ok { q := q, st := st, currentValue := [] } := by
  have hne := TrimSpace_ne_nil_of_isMarker m h
  unfold isMarker at h
  simp only [scanStep, hne, if_false, h, if_true, keyword]

theorem scanStep_content (v : Vars) (l : List Char) (h : isMarker l = false) :
    scanStep v l = .ok { v with currentValue := v.currentValue ++ TrimSpace l } := by
  unfold isMarker at h
  by_cases hne : TrimSpace l = []
  · simp [scanStep, hne]
  · simp only [scanStep, hne, h, if_false, Bool.false_eq_true]

theorem scanLoop_content (c : List (List Char)) (h : ∀ l ∈ c, isMarker l = false) (v : Vars) :
    scanLoop c v = .ok { v with currentValue := v.currentValue ++ accumulated c } := by
  induction c generalizing v with
  | nil => simp [scanLoop, accumulated]
  | cons l ls ih =>
    simp only [scanLoop, scanStep_content v l (h l (by simp))]
    rw [ih (fun x hx => h x (by simp [hx]))]
    simp [accumulated]

theorem finish_scanLoop_render (secs : List Section) (hwf : WellFormed secs) (v : Vars) :
    finish (scanLoop (render secs) v) =
      match v.q.set v.st v.currentValue with
      | none => .error (.failedSet v.st v.currentValue)
      | some q => commitAll secs q := by
  induction secs generalizing v with
  | nil =>
    simp only [render, scanLoop, finish, commitAll]
  | cons s rest ih =>
    have hs := hwf s (by simp)
    have hrest : WellFormed rest := fun x hx => hwf x (by simp [hx])
    simp only [render, scanLoop, scanStep_marker v s.marker hs.1]
    cases hset : v.q.set v.st v.currentValue with
    | none => simp [finish]
    | some q =>
      simp only [commitAll, commitSection]
      cases hn : nextState (keyword s.marker) with
      | none => simp [finish]
      | some st =>
        simp only []
        rw [scanLoop_append, scanLoop_content s.content hs.2]
        simp only []
        rw [ih hrest]
        simp only [List.nil_append]
        cases q.set st (accumulated s.content) <;> rfl

/-- The loop and the final `set` of `parseBody` on lines without a marker
followed by well-formed sections: the sections are committed in order,
starting from the zero record. -/
theorem finish_scanLoop_sections (pre : List (List Char)) (secs : List Section)
    (hpre : ∀ l ∈ pre, isMarker l = false) (hwf : WellFormed secs) :
    finish (scanLoop (pre ++ render secs) initVars) = commitAll secs {} := by
  rw [scanLoop_append, scanLoop_content pre hpre]
  simp only []
  rw [finish_scanLoop_render secs hwf]
  rfl

theorem not_mem_render (secs : List Section) (l : List Char) (h : l ∈ render secs) :
    ∃ s ∈ secs, l = s.marker ∨ l ∈ s.content := by
  induction secs with
  | nil => simp [render] at h
  | cons s rest ih =>
    simp only [render, List.mem_cons, List.mem_append] at h
    rcases h with h | h | h
    · exact ⟨s, by simp, Or.inl h⟩
    · exact ⟨s, by simp, Or.inr h⟩
    · obtain ⟨t, ht, hl⟩ := ih h
      exact ⟨t, by simp [ht], hl⟩
/-! ## `Atoi` and decimal numerals -/

theorem digitVal_digitChar (d : Nat) (h : d < 10) : digitVal (Nat.digitChar d) = some d := by
  interval_cases d <;> rfl

theorem digitChar_ne_sign (d : Nat) (h : d < 10) :
    Nat.digitChar d ≠ '+' ∧ Nat.digitChar d ≠ '-' := by
  interval_cases d <;> decide

theorem digitVal_eq_some (c : Char) (d : Nat) (h : digitVal c = some d) :
    c = Nat.digitChar d ∧ d < 10 := by
  unfold digitVal at h
  split at h <;> first
    | (cases h; exact ⟨rfl, by decide⟩)
    | (exact absurd h (by simp))

theorem parseDigits_map (ds : List Nat) (h : ∀ d ∈ ds, d < 10) (acc : Nat) :
    parseDigits (ds.map Nat.digitChar) acc = some (ds.foldl (fun a d => a * 10 + d) acc) := by
  induction ds generalizing acc with
  | nil => rfl
  | cons d ds ih =>
    simp only [List.map_cons, parseDigits, digitVal_digitChar d (h d (by simp)), List.foldl_cons]
    exact ih (fun x hx => h x (by simp [hx])) _

theorem parseDigits_eq_some (s : List Char) (acc v : Nat) (h : parseDigits s acc = some v) :
    ∃ ds : List Nat, (∀ d ∈ ds, d < 10) ∧ s = ds.map Nat.digitChar ∧
      v = ds.foldl (fun a d => a * 10 + d) acc := by
  induction s generalizing acc with
  | nil =>
    simp only [parseDigits, Option.some.injEq] at h
    exact ⟨[], by simp, rfl, by simp [h]⟩
  | cons c cs ih =>
    simp only [parseDigits] at h
    cases hd : digitVal c with
    | none => simp [hd] at h
    | some d =>
      simp only [hd] at h
      obtain ⟨ds, h1, h2, h3⟩ := ih _ h
      obtain ⟨hc, hlt⟩ := digitVal_eq_some c d hd
      refine ⟨d :: ds, ?_, ?_, ?_⟩
      · intro x hx
        rcases List.mem_cons.1 hx with rfl | hx
        · exact hlt
        · exact h1 x hx
      · simp [hc, h2]
      · simpa using h3

theorem parseUint_map (ds : List Nat) (hne : ds ≠ []) (h : ∀ d ∈ ds, d < 10) :
    parseUint (ds.map Nat.digitChar) = some (digitsValue ds) := by
  cases ds with
  | nil => exact absurd rfl hne
  | cons d ds =>
    have := parseDigits_map (d :: ds) h 0
    simpa [parseUint, digitsValue] using this

theorem parseUint_eq_some (s : List Char) (v : Nat) (h : parseUint s = some v) :
    ∃ ds : List Nat, ds ≠ [] ∧ (∀ d ∈ ds, d < 10) ∧ s = ds.map Nat.digitChar ∧
      v = digitsValue ds := by
  cases s with
  | nil => simp [parseUint] at h
  | cons c cs =>
    simp only [parseUint] at h
    obtain ⟨ds, h1, h2, h3⟩ := parseDigits_eq_some _ _ _ h
    refine ⟨ds, ?_, h1, h2, h3⟩
    rintro rfl
    simp at h2

/-- On a base-10 numeral whose value is in the range of `int`, `Atoi` returns
that value. -/
theorem Atoi_of_DecimalForm (s : List Char) (n : Int) (h : DecimalForm s n) (hn : FitsInt n) :
    Atoi s = some n := by
  obtain ⟨ds, hne, hlt, h⟩ := h
  obtain ⟨d, ds', rfl⟩ := List.exists_cons_of_ne_nil hne
  have hd := digitChar_ne_sign d (hlt d (by simp))
  have hu := parseUint_map (d :: ds') hne hlt
  simp only [List.map_cons] at hu
  unfold FitsInt at hn
  norm_num at hn
  rcases h with ⟨rfl, rfl⟩ | ⟨rfl, rfl⟩ | ⟨rfl, rfl⟩
  · simp only [List.map_cons, Atoi, hd.1, hd.2, or_self, if_false, hu, intSize, decide_False]
    norm_num
    omega
  · have hpm : ¬ ('+' : Char) = '-' := by decide
    simp only [List.map_cons, Atoi, true_or, if_true, hu, intSize, hpm, decide_False]
    norm_num
    omega
  · simp only [List.map_cons, Atoi, or_true, if_true, hu, intSize]
    norm_num
    intro hc
    omega

/-- When `Atoi` returns without error, its argument is a base-10 numeral of
the returned value, which is in the range of `int`. -/
theorem DecimalForm_of_Atoi (s : List Char) (n : Int) (h : Atoi s = some n) :
    DecimalForm s n ∧ FitsInt n := by
  cases s with
  | nil => simp [Atoi] at h
  | cons c cs =>
    simp only [Atoi] at h
    by_cases hm : c = '-'
    · subst hm
      simp only [or_true, if_true, decide_True] at h
      cases hu : parseUint cs with
      | none => simp [hu] at h
      | some un =>
        obtain ⟨ds, hne, hlt, hs, hv⟩ := parseUint_eq_some cs un hu
        simp only [hu, intSize] at h
        norm_num at h
        obtain ⟨hr, rfl⟩ := h
        refine ⟨⟨ds, hne, hlt, Or.inr (Or.inr ⟨by rw [hs], by rw [hv]⟩)⟩, ?_⟩
        unfold FitsInt
        norm_num
        omega
    · by_cases hp : c = '+'
      · subst hp
        simp only [true_or, if_true, hm, decide_False] at h
        cases hu : parseUint cs with
        | none => simp [hu] at h
        | some un =>
          obtain ⟨ds, hne, hlt, hs, hv⟩ := parseUint_eq_some cs un hu
          simp only [hu, intSize] at h
          norm_num at h
          obtain ⟨hr, rfl⟩ := h
          refine ⟨⟨ds, hne, hlt, Or.inr (Or.inl ⟨by rw [hs], by rw [hv]⟩)⟩, ?_⟩
          unfold FitsInt
          norm_num
          omega
      · simp only [hp, hm, or_self, if_false, decide_False] at h
        cases hu : parseUint (c :: cs) with
        | none => simp [hu] at h
        | some un =>
          obtain ⟨ds, hne, hlt, hs, hv⟩ := parseUint_eq_some (c :: cs) un hu
          simp only [hu, intSize] at h
          norm_num at h
          obtain ⟨hr, rfl⟩ := h
          refine ⟨⟨ds, hne, hlt, Or.inl ⟨by rw [hs], by rw [hv]⟩⟩, ?_⟩
          unfold FitsInt
          norm_num
          omega

/-! ## Long lines -/

theorem utf8Len_replicate (n : Nat) (c : Char) :
    utf8Len (List.replicate n c) = n * c.utf8Size := by
  induction n with
  | zero => simp [utf8Len]
  | succ n ih =>
    simp only [utf8Len, List.replicate_succ, List.map_cons, List.sum_cons] at ih ⊢
    rw [ih]
    ring

theorem not_fits_longLine : ¬ fits longLine = true := by
  have h : Char.utf8Size '\u4e2d' = 3 := by rfl
  unfold fits longLine
  rw [utf8Len_replicate, h]
  simp [MaxScanTokenSize]

theorem not_mem_longLine : '\n' ∉ longLine := by
  intro h
  exact absurd (List.eq_of_mem_replicate h) (by decide)

theorem mem_longLine : '\u4e2d' ∈ longLine :=
  List.mem_replicate.2 ⟨by decide, rfl⟩

theorem not_fits_longBlankLine : ¬ fits longBlankLine = true := by
  have h : Char.utf8Size '\u3000' = 3 := by rfl
  unfold fits longBlankLine
  rw [utf8Len_replicate, h]
  simp [MaxScanTokenSize]

theorem not_mem_longBlankLine : '\n' ∉ longBlankLine := by
  intro h
  exact absurd (List.eq_of_mem_replicate h) (by decide)

theorem isSpace_longBlankLine : ∀ c ∈ longBlankLine, isSpace c = true := by
  intro c hc
  rw [List.eq_of_mem_replicate hc]
  decide

/-! ## Line-level properties of `parseBody` -/

theorem takeWhile_fits_append (pre rest : List (List Char)) (h : ∀ l ∈ pre, fits l = true) :
    (pre ++ rest).takeWhile fits = pre ++ rest.takeWhile fits := by
  induction pre with
  | nil => rfl
  | cons l ls ih =>
    have hl := h l (by simp)
    simp only [List.cons_append]
    rw [List.takeWhile_cons_of_pos hl, ih (fun x hx => h x (by simp [hx]))]

theorem takeWhile_fits_append_of_not_all (pre rest : List (List Char))
    (h : ¬ ∀ l ∈ pre, fits l = true) :
    (pre ++ rest).takeWhile fits = pre.takeWhile fits := by
  induction pre with
  | nil => exact absurd (by simp) h
  | cons l ls ih =>
    by_cases hl : fits l = true
    · simp only [List.cons_append]
      rw [List.takeWhile_cons_of_pos hl, List.takeWhile_cons_of_pos hl, ih]
      intro hall
      apply h
      intro x hx
      rcases List.mem_cons.1 hx with rfl | hx
      · exact hl
      · exact hall x hx
    · simp only [List.cons_append]
      rw [List.takeWhile_cons_of_neg hl, List.takeWhile_cons_of_neg hl]

theorem finish_scanLoop_error (ls : List (List Char)) (v : Vars) (e : ParseError)
    (h : scanLoop ls v = .error e) : finish (scanLoop ls v) = .error e := by
  rw [h]; rfl

theorem scanLoop_blank (blanks : List (List Char)) (h : ∀ b ∈ blanks, TrimSpace b = [])
    (v : Vars) : scanLoop blanks v = .ok v := by
  induction blanks generalizing v with
  | nil => rfl
  | cons b bs ih =>
    have hb := h b (by simp)
    have : scanStep v b = .ok v := by simp [scanStep, hb]
    simp only [scanLoop, this]
    exact ih (fun x hx => h x (by simp [hx])) v

/-- An unknown marker line after lines that all fit the scanner's buffer makes
the loop of `parseBody` fail. -/
theorem scanLoop_unknown (pre rest : List (List Char)) (m : List Char) (v : Vars)
    (hm : isMarker m = true) (hk : nextState (keyword m) = none) :
    ∃ e, scanLoop (pre ++ m :: rest) v = .error e := by
  rw [scanLoop_append]
  cases scanLoop pre v with
  | error e => exact ⟨e, rfl⟩
  | ok v' =>
    simp only [scanLoop, scanStep_marker v' m hm]
    cases v'.q.set v'.st v'.currentValue with
    | none => exact ⟨_, rfl⟩
    | some q => simp only [hk]; exact ⟨_, rfl⟩

theorem nextState_eq_none (k : List Char) (hq : k ≠ "question".toList)
    (ha : k ≠ "answer".toList) (he : k ≠ "explain".toList) (hp : k ≠ "page".toList)
    (ho : HasPrefix k "option".toList = false) : nextState k = none := by
  simp only [nextState, hq, ha, he, hp, ho, if_false, Bool.false_eq_true]
/-! ## Unknown sections (C2) -/

/-- C2, as amended: a body that contains a marker line whose keyword is none
of `question`, `answer`, `explain`, `page` and does not begin with `option`,
every line up to and including that marker line being shorter than 65536
bytes, makes `parseBody` return an error and no record, whatever stands before
and after that line. -/
theorem parseBody_unknown_section (pre post : List (List Char)) (m : List Char)
    (hnl : ∀ l ∈ pre ++ m :: post, '\n' ∉ l)
    (hfit : ∀ l ∈ pre ++ [m], utf8Len l < MaxScanTokenSize)
    (hm : isMarker m = true)
    (hq : keyword m ≠ "question".toList) (ha : keyword m ≠ "answer".toList)
    (he : keyword m ≠ "explain".toList) (hp : keyword m ≠ "page".toList)
    (ho : HasPrefix (keyword m) "option".toList = false) :
    ∃ e, parseBody (joinLines (pre ++ m :: post)) = .error e := by
  rw [parseBody_joinLines _ hnl]
  have hpre : ∀ l ∈ pre, fits l = true := fun l hl => by
    simpa [fits] using hfit l (by simp [hl])
  have hmf : fits m = true := by simpa [fits] using hfit m (by simp)
  rw [takeWhile_fits_append pre _ hpre, List.takeWhile_cons_of_pos hmf]
  obtain ⟨e, h⟩ := scanLoop_unknown pre (post.takeWhile fits) m initVars hm
    (nextState_eq_none _ hq ha he hp ho)
  exact ⟨e, finish_scanLoop_error _ _ e h⟩

/-- Witness for C2: the marker line `### bogus` between two other lines. -/
theorem parseBody_unknown_section_witness :
    ∃ e, parseBody (joinLines (["### question".toList, "hi".toList] ++
      "### bogus".toList :: ["### page".toList])) = .error e :=
  parseBody_unknown_section ["### question".toList, "hi".toList] ["### page".toList]
    "### bogus".toList (by decide) (by decide) (by decide) (by decide) (by decide)
    (by decide) (by decide) (by decide)

/-- Counterexample to C2 as stated: the marker line `### bogus` after a line of
65538 bytes is never read, and `parseBody` returns the zero record without an
error. -/
theorem unknown_section_after_long_line :
    isMarker "### bogus".toList = true ∧
    nextState (keyword "### bogus".toList) = none ∧
    parseBody (longLine ++ "\n### bogus".toList) = .ok {} := by
  refine ⟨by decide, by decide, ?_⟩
  have h : longLine ++ "\n### bogus".toList =
      joinLines [longLine, "### bogus".toList] := rfl
  have hnl : ∀ l ∈ [longLine, "### bogus".toList], '\n' ∉ l := by
    intro l hl
    rcases List.mem_cons.1 hl with rfl | hl
    · exact not_mem_longLine
    · rcases List.mem_cons.1 hl with rfl | hl
      · decide
      · simp at hl
  rw [h, parseBody_joinLines _ hnl, List.takeWhile_cons_of_neg not_fits_longLine]
  rfl
/-! ## Blank lines (C7) -/

/-- C7, as amended: inserting, at any position of a body, any number of lines
that are empty or contain only white space, each shorter than 65536 bytes,
does not change the result of `parseBody`: the same record, or the same
error. -/
theorem parseBody_blank_lines (pre blanks post : List (List Char))
    (hnl : ∀ l ∈ pre ++ blanks ++ post, '\n' ∉ l)
    (hb : ∀ b ∈ blanks, (∀ c ∈ b, isSpace c = true) ∧ utf8Len b < MaxScanTokenSize) :
    parseBody (joinLines (pre ++ blanks ++ post)) = parseBody (joinLines (pre ++ post)) := by
  have hnl' : ∀ l ∈ pre ++ post, '\n' ∉ l := fun l hl => hnl l (by
    rcases List.mem_append.1 hl with h | h
    · simp [h]
    · simp [h])
  rw [parseBody_joinLines _ hnl, parseBody_joinLines _ hnl']
  have hbf : ∀ b ∈ blanks, fits b = true := fun b h => by simpa [fits] using (hb b h).2
  have hbt : ∀ b ∈ blanks, TrimSpace b = [] := fun b h => TrimSpace_of_all_space b (hb b h).1
  by_cases hpre : ∀ l ∈ pre, fits l = true
  · rw [List.append_assoc, takeWhile_fits_append pre _ hpre, takeWhile_fits_append blanks _ hbf,
      takeWhile_fits_append pre _ hpre, scanLoop_append, scanLoop_append pre]
    cases scanLoop pre initVars with
    | error e => rfl
    | ok v =>
      simp only []
      rw [scanLoop_append, scanLoop_blank blanks hbt]
  · rw [List.append_assoc, takeWhile_fits_append_of_not_all pre _ hpre,
      takeWhile_fits_append_of_not_all pre _ hpre]

/-- Witness for C7: two blank lines inserted inside a question section. -/
theorem parseBody_blank_lines_witness :
    parseBody (joinLines (["### question".toList, "a".toList] ++ [[], " \t".toList] ++
      ["b".toList])) =
    parseBody (joinLines (["### question".toList, "a".toList] ++ ["b".toList])) :=
  parseBody_blank_lines ["### question".toList, "a".toList] [[], " \t".toList] ["b".toList]
    (by decide) (by decide)

/-- Counterexample to C7 as stated: a line of 21846 ideographic spaces (65538 bytes) inserted between the
marker `### question` and its content line `hi` changes the record that
`parseBody` returns. -/
theorem blank_line_changes_result :
    (∀ c ∈ longBlankLine, isSpace c = true) ∧
    parseBody (joinLines (["### question".toList] ++ ["hi".toList])) =
      .ok { Question := "hi".toList } ∧
    parseBody (joinLines (["### question".toList] ++ [longBlankLine] ++
      ["hi".toList])) = .ok { Question := [] } := by
  refine ⟨isSpace_longBlankLine, by rfl, ?_⟩
  · have h : ["### question".toList] ++ [longBlankLine] ++ ["hi".toList] =
        ["### question".toList, longBlankLine, "hi".toList] := rfl
    have hnl : ∀ l ∈ ["### question".toList, longBlankLine, "hi".toList],
        '\n' ∉ l := by
      intro l hl
      rcases List.mem_cons.1 hl with rfl | hl
      · decide
      · rcases List.mem_cons.1 hl with rfl | hl
        · exact not_mem_longBlankLine
        · rcases List.mem_cons.1 hl with rfl | hl
          · decide
          · simp at hl
    rw [h, parseBody_joinLines _ hnl, List.takeWhile_cons_of_pos (by decide),
      List.takeWhile_cons_of_neg not_fits_longBlankLine]
    rfl
/-! ## Non-integer answers (C3) -/

theorem Atoi_eq_none_of_not_DecimalForm (s : List Char) (h : ¬ ∃ n, DecimalForm s n) :
    Atoi s = none := by
  cases hA : Atoi s with
  | none => rfl
  | some n => exact absurd ⟨n, (DecimalForm_of_Atoi s n hA).1⟩ h

theorem DecimalForm_chars (s : List Char) (n : Int) (h : DecimalForm s n) :
    ∀ c ∈ s, c = '+' ∨ c = '-' ∨ ∃ d, d < 10 ∧ c = Nat.digitChar d := by
  obtain ⟨ds, _, hlt, h⟩ := h
  have hmap : ∀ c ∈ ds.map Nat.digitChar, ∃ d, d < 10 ∧ c = Nat.digitChar d := by
    intro c hc
    obtain ⟨d, hd, rfl⟩ := List.mem_map.1 hc
    exact ⟨d, hlt d hd, rfl⟩
  intro c hc
  rcases h with ⟨rfl, _⟩ | ⟨rfl, _⟩ | ⟨rfl, _⟩
  · exact Or.inr (Or.inr (hmap c hc))
  · rcases List.mem_cons.1 hc with rfl | hc
    · exact Or.inl rfl
    · exact Or.inr (Or.inr (hmap c hc))
  · rcases List.mem_cons.1 hc with rfl | hc
    · exact Or.inr (Or.inl rfl)
    · exact Or.inr (Or.inr (hmap c hc))

theorem TrimSpace_of_no_space (l : List Char) (h : ∀ c ∈ l, isSpace c = false) :
    TrimSpace l = l := by
  unfold TrimSpace
  have h1 : l.rdropWhile isSpace = l := by
    rw [List.rdropWhile_eq_self_iff]
    intro hne
    simp [h _ (List.getLast_mem hne)]
  rw [h1, List.dropWhile_eq_self_iff]
  intro hne
  have hmem : l[0] ∈ l := by
    first
      | exact List.getElem_mem _ _ _
      | exact List.getElem_mem _
  simp [h _ hmem]

theorem TrimSpace_longLine : TrimSpace longLine = longLine := by
  apply TrimSpace_of_no_space
  intro c hc
  rw [List.eq_of_mem_replicate hc]
  decide

/-- An answer section whose accumulated value is not a base-10 numeral makes the
loop of `parseBody`, or the final `set`, fail. -/
theorem finish_scanLoop_bad_answer (pre content rest : List (List Char)) (m : List Char)
    (hm : isMarker m = true) (hk : keyword m = "answer".toList)
    (hc : ∀ l ∈ content, isMarker l = false)
    (hrest : ∀ p ∈ rest.head?, isMarker p = true)
    (hbad : ¬ ∃ n, DecimalForm (accumulated content) n) :
    ∃ e, finish (scanLoop (pre ++ m :: (content ++ rest)) initVars) = .error e := by
  rw [scanLoop_append]
  cases scanLoop pre initVars with
  | error e => exact ⟨e, rfl⟩
  | ok v =>
    simp only [scanLoop, scanStep_marker v m hm]
    cases v.q.set v.st v.currentValue with
    | none => exact ⟨_, rfl⟩
    | some q =>
      have hn : nextState (keyword m) = some .stateReadAnswer := by rw [hk]; rfl
      simp only [hn]
      rw [scanLoop_append, scanLoop_content content hc]
      simp only [List.nil_append]
      have hset : q.set .stateReadAnswer (accumulated content) = none := by
        simp [Question.set, Atoi_eq_none_of_not_DecimalForm _ hbad]
      cases rest with
      | nil =>
        simp only [scanLoop, finish, hset]
        exact ⟨_, rfl⟩
      | cons p ps =>
        have hp : isMarker p = true := hrest p (by simp)
        simp only [scanLoop, scanStep_marker _ p hp, hset]
        exact ⟨_, rfl⟩

/-- C3, as amended: a body that contains an `### answer` section whose
accumulated value (its trimmed content lines concatenated) is not a base-10
integer, every line up to the end of that section being shorter than 65536
bytes, makes `parseBody` return an error and no record, whether the section is
closed by a later marker line or by the end of the input. -/
theorem parseBody_non_integer_answer (pre content post : List (List Char)) (m : List Char)
    (hnl : ∀ l ∈ pre ++ m :: (content ++ post), '\n' ∉ l)
    (hfit : ∀ l ∈ pre ++ m :: content, utf8Len l < MaxScanTokenSize)
    (hm : isMarker m = true) (hk : keyword m = "answer".toList)
    (hc : ∀ l ∈ content, isMarker l = false)
    (hpost : ∀ p ∈ post.head?, isMarker p = true)
    (hbad : ¬ ∃ n, DecimalForm (accumulated content) n) :
    ∃ e, parseBody (joinLines (pre ++ m :: (content ++ post))) = .error e := by
  rw [parseBody_joinLines _ hnl]
  have hfit' : ∀ l ∈ pre ++ m :: content, fits l = true := fun l hl => by
    simpa [fits] using hfit l hl
  have e1 : pre ++ m :: (content ++ post) = (pre ++ m :: content) ++ post := by simp
  rw [e1, takeWhile_fits_append _ _ hfit']
  have e2 : (pre ++ m :: content) ++ post.takeWhile fits =
      pre ++ m :: (content ++ post.takeWhile fits) := by simp
  rw [e2]
  apply finish_scanLoop_bad_answer pre content _ m hm hk hc _ hbad
  intro p hp
  apply hpost
  cases post with
  | nil => simp at hp
  | cons a as =>
    by_cases ha : fits a = true
    · rw [List.takeWhile_cons_of_pos ha] at hp
      simpa using hp
    · rw [List.takeWhile_cons_of_neg ha] at hp
      simp at hp

theorem not_DecimalForm_yes : ¬ ∃ n, DecimalForm (accumulated ["yes".toList]) n := by
  rintro ⟨n, h⟩
  have := DecimalForm_chars _ n h 'y' (by decide)
  rcases this with h | h | ⟨d, hd, h⟩
  · exact absurd h (by decide)
  · exact absurd h (by decide)
  · interval_cases d <;> exact absurd h (by decide)

/-- Witness for C3: the answer `yes`, closed by a later marker line. -/
theorem parseBody_non_integer_answer_witness :
    ∃ e, parseBody (joinLines (["### question".toList, "q".toList] ++
      "### answer".toList :: (["yes".toList] ++ ["### page".toList, "p".toList]))) = .error e :=
  parseBody_non_integer_answer ["### question".toList, "q".toList] ["yes".toList]
    ["### page".toList, "p".toList] "### answer".toList (by decide) (by decide) (by decide)
    (by decide) (by decide) (by decide) not_DecimalForm_yes

/-- Counterexample to C3 as stated: an `### answer` section with the content
lines `5` and a line of 65538 bytes has an accumulated value that is not a
base-10 integer, and `parseBody` returns a record with `Answer = 5`. -/
theorem non_integer_answer_accepted :
    isMarker "### answer".toList = true ∧ keyword "### answer".toList = "answer".toList ∧
    (∀ l ∈ ["5".toList, longLine], isMarker l = false) ∧
    (¬ ∃ n, DecimalForm (accumulated ["5".toList, longLine]) n) ∧
    parseBody (joinLines ([] ++ "### answer".toList ::
      (["5".toList, longLine] ++ []))) = .ok { Answer := 5 } := by
  refine ⟨by decide, by decide, ?_, ?_, ?_⟩
  · intro l hl
    rcases List.mem_cons.1 hl with rfl | hl
    · decide
    · rcases List.mem_cons.1 hl with rfl | hl
      · unfold isMarker
        rw [TrimSpace_longLine]
        rfl
      · simp at hl
  · rintro ⟨n, h⟩
    have hmem : '\u4e2d' ∈ accumulated ["5".toList, longLine] := by
      simp only [accumulated, TrimSpace_longLine, List.append_nil]
      exact List.mem_append_right _ mem_longLine
    rcases DecimalForm_chars _ n h '\u4e2d' hmem with h | h | ⟨d, hd, h⟩
    · exact absurd h (by decide)
    · exact absurd h (by decide)
    · interval_cases d <;> exact absurd h (by decide)
  · have h : [] ++ "### answer".toList :: (["5".toList, longLine] ++ []) =
        ["### answer".toList, "5".toList, longLine] := rfl
    have hnl : ∀ l ∈ ["### answer".toList, "5".toList, longLine],
        '\n' ∉ l := by
      intro l hl
      rcases List.mem_cons.1 hl with rfl | hl
      · decide
      · rcases List.mem_cons.1 hl with rfl | hl
        · decide
        · rcases List.mem_cons.1 hl with rfl | hl
          · exact not_mem_longLine
          · simp at hl
    rw [h, parseBody_joinLines _ hnl, List.takeWhile_cons_of_pos (by decide),
      List.takeWhile_cons_of_pos (by decide), List.takeWhile_cons_of_neg not_fits_longLine]
    rfl
/-! ## Keywords and states -/

theorem nextState_question (k : List Char) :
    nextState k = some .stateReadQuestion ↔ k = "question".toList := by
  unfold nextState
  constructor
  · intro h
    by_contra hk
    rw [if_neg hk] at h
    repeat' split at h
    all_goals simp at h
  · rintro rfl
    rfl

theorem nextState_option (k : List Char) :
    nextState k = some .stateReadOption ↔ HasPrefix k "option".toList = true := by
  unfold nextState
  constructor
  · intro h
    by_contra hk
    rw [if_neg hk] at h
    repeat' split at h
    all_goals simp at h
  · intro h
    have hq : k ≠ "question".toList := by
      rintro rfl
      exact absurd h (by decide)
    rw [if_neg hq, if_pos h]

theorem nextState_answer (k : List Char) :
    nextState k = some .stateReadAnswer ↔ k = "answer".toList := by
  unfold nextState
  constructor
  · intro h
    by_contra hk
    rw [if_neg hk] at h
    repeat' split at h
    all_goals simp at h
  · rintro rfl
    rfl

theorem nextState_explain (k : List Char) :
    nextState k = some .stateReadExplain ↔ k = "explain".toList := by
  unfold nextState
  constructor
  · intro h
    by_contra hk
    rw [if_neg hk] at h
    repeat' split at h
    all_goals simp at h
  · rintro rfl
    rfl

theorem nextState_page (k : List Char) :
    nextState k = some .stateReadPage ↔ k = "page".toList := by
  unfold nextState
  constructor
  · intro h
    by_contra hk
    rw [if_neg hk] at h
    repeat' split at h
    all_goals simp at h
  · rintro rfl
    rfl

theorem nextState_ne_none_state (k : List Char) : nextState k ≠ some .stateNone := by
  unfold nextState
  intro h
  repeat' split at h
  all_goals simp at h

/-- A keyword is one of those `parseBody` recognises. -/
theorem nextState_isSome_of_known (k : List Char)
    (h : k = "question".toList ∨ k = "answer".toList ∨ k = "explain".toList ∨
      k = "page".toList ∨ HasPrefix k "option".toList = true) :
    ∃ st, nextState k = some st := by
  rcases h with h | h | h | h | h
  · exact ⟨_, (nextState_question k).2 h⟩
  · exact ⟨_, (nextState_answer k).2 h⟩
  · exact ⟨_, (nextState_explain k).2 h⟩
  · exact ⟨_, (nextState_page k).2 h⟩
  · exact ⟨_, (nextState_option k).2 h⟩
/-! ## The record built from the sections of a body -/

theorem commitSection_eq_ok (q q' : Question) (s : Section) (h : commitSection q s = .ok q') :
    ∃ st, nextState (keyword s.marker) = some st ∧ q.set st (accumulated s.content) = some q' := by
  unfold commitSection at h
  cases hn : nextState (keyword s.marker) with
  | none => simp [hn] at h
  | some st =>
    simp only [hn] at h
    cases hs : q.set st (accumulated s.content) with
    | none => simp [hs] at h
    | some q1 =>
      simp only [hs, Except.ok.injEq] at h
      exact ⟨st, rfl, by rw [hs, h]⟩

theorem commitAll_cons_ok (s : Section) (rest : List Section) (q q' : Question)
    (h : commitAll (s :: rest) q = .ok q') :
    ∃ q1, commitSection q s = .ok q1 ∧ commitAll rest q1 = .ok q' := by
  simp only [commitAll] at h
  cases hc : commitSection q s with
  | error e => simp [hc] at h
  | ok q1 => exact ⟨q1, rfl, by simpa [hc] using h⟩

theorem commitAll_append (a b : List Section) (q : Question) :
    commitAll (a ++ b) q =
      match commitAll a q with
      | .error e => .error e
      | .ok q' => commitAll b q' := by
  induction a generalizing q with
  | nil => rfl
  | cons s rest ih =>
    simp only [List.cons_append, commitAll]
    cases commitSection q s with
    | error e => rfl
    | ok q1 => exact ih q1

/-- The value of a field after the sections of a body were committed: what the
last section of the field's state produced, and the initial value when there
is no such section. -/
theorem commitAll_field {α : Type} (f : Question → α) (st0 : state) (R : List Char → α → Prop)
    (hother : ∀ (q : Question) (st : state) (v : List Char) (q' : Question),
      st ≠ st0 → q.set st v = some q' → f q' = f q)
    (hset : ∀ (q : Question) (v : List Char) (q' : Question),
      q.set st0 v = some q' → R v (f q'))
    (secs : List Section) (q q' : Question) (h : commitAll secs q = .ok q') :
    match (secs.filter (heads st0)).getLast? with
    | none => f q' = f q
    | some s => R (accumulated s.content) (f q') := by
  induction secs generalizing q with
  | nil =>
    simp only [commitAll, Except.ok.injEq] at h
    simp [h]
  | cons s rest ih =>
    obtain ⟨q1, h1, h2⟩ := commitAll_cons_ok s rest q q' h
    obtain ⟨st, hst, hs⟩ := commitSection_eq_ok q q1 s h1
    have ih' := ih q1 h2
    by_cases hh : heads st0 s = true
    · rw [List.filter_cons_of_pos hh]
      have hst0 : st = st0 := by
        simp only [heads, decide_eq_true_eq] at hh
        rw [hst] at hh
        exact Option.some.inj hh
      subst hst0
      cases hl : (rest.filter (heads st)).getLast? with
      | none =>
        rw [hl] at ih'
        have hnil : rest.filter (heads st) = [] := List.getLast?_eq_none_iff.1 hl
        simp only [hnil, List.getLast?_singleton]
        have := hset q _ q1 hs
        simp only [] at ih'
        rw [ih']
        exact this
      | some t =>
        rw [hl] at ih'
        have hne : rest.filter (heads st) ≠ [] := by
          intro e
          rw [e] at hl
          simp at hl
        obtain ⟨a, as, e⟩ := List.exists_cons_of_ne_nil hne
        rw [e] at hl ⊢
        rw [List.getLast?_cons_cons, hl]
        exact ih'
    · rw [List.filter_cons_of_neg hh]
      have hne : st ≠ st0 := by
        rintro rfl
        apply hh
        simp [heads, hst]
      have hq := hother q st _ q1 hne hs
      cases hl : (rest.filter (heads st0)).getLast? with
      | none =>
        rw [hl] at ih'
        simp only [] at ih' ⊢
        rw [ih', hq]
      | some t =>
        rw [hl] at ih'
        exact ih'
theorem set_eq_some (q q' : Question) (st : state) (v : List Char) (h : q.set st v = some q') :
    (st = .stateReadQuestion ∧ q' = { q with Question := v }) ∨
    (st = .stateReadOption ∧ q' = { q with Options := q.Options ++ [v] }) ∨
    (st = .stateReadAnswer ∧ ∃ n, Atoi v = some n ∧ q' = { q with Answer := n }) ∨
    (st = .stateReadExplain ∧ q' = { q with Explain := v }) ∨
    (st = .stateReadPage ∧ q' = { q with page := v }) ∨
    (st = .stateNone ∧ q' = q) := by
  cases st <;> simp only [Question.set, Option.some.injEq] at h
  · exact Or.inr (Or.inr (Or.inr (Or.inr (Or.inr ⟨rfl, h.symm⟩))))
  · exact Or.inl ⟨rfl, h.symm⟩
  · cases hA : Atoi v with
    | none => simp [hA] at h
    | some n =>
      simp only [hA, Option.some.injEq] at h
      exact Or.inr (Or.inr (Or.inl ⟨rfl, n, rfl, h.symm⟩))
  · exact Or.inr (Or.inl ⟨rfl, h.symm⟩)
  · exact Or.inr (Or.inr (Or.inr (Or.inl ⟨rfl, h.symm⟩)))
  · exact Or.inr (Or.inr (Or.inr (Or.inr (Or.inl ⟨rfl, h.symm⟩))))

theorem commitAll_Question (secs : List Section) (q q' : Question)
    (h : commitAll secs q = .ok q') :
    match (secs.filter (heads .stateReadQuestion)).getLast? with
    | none => q'.Question = q.Question
    | some s => accumulated s.content = q'.Question := by
  apply commitAll_field (fun q => q.Question) .stateReadQuestion (fun v a => v = a) _ _ secs q q' h
  · intro q st v q' hne hs
    rcases set_eq_some q q' st v hs with ⟨h1, h2⟩ | ⟨_, h2⟩ | ⟨_, n, _, h2⟩ | ⟨_, h2⟩ | ⟨_, h2⟩ |
      ⟨_, h2⟩
    · exact absurd h1 hne
    all_goals rw [h2]
  · intro q v q' hs
    rcases set_eq_some q q' _ v hs with ⟨_, h2⟩ | ⟨h1, _⟩ | ⟨h1, _⟩ | ⟨h1, _⟩ | ⟨h1, _⟩ | ⟨h1, _⟩
    · rw [h2]
    all_goals exact absurd h1 (by decide)

theorem commitAll_Explain (secs : List Section) (q q' : Question)
    (h : commitAll secs q = .ok q') :
    match (secs.filter (heads .stateReadExplain)).getLast? with
    | none => q'.Explain = q.Explain
    | some s => accumulated s.content = q'.Explain := by
  apply commitAll_field (fun q => q.Explain) .stateReadExplain (fun v a => v = a) _ _ secs q q' h
  · intro q st v q' hne hs
    rcases set_eq_some q q' st v hs with ⟨_, h2⟩ | ⟨_, h2⟩ | ⟨_, n, _, h2⟩ | ⟨h1, h2⟩ | ⟨_, h2⟩ |
      ⟨_, h2⟩
    · rw [h2]
    · rw [h2]
    · rw [h2]
    · exact absurd h1 hne
    all_goals rw [h2]
  · intro q v q' hs
    rcases set_eq_some q q' _ v hs with ⟨h1, _⟩ | ⟨h1, _⟩ | ⟨h1, _⟩ | ⟨_, h2⟩ | ⟨h1, _⟩ | ⟨h1, _⟩
    · exact absurd h1 (by decide)
    · exact absurd h1 (by decide)
    · exact absurd h1 (by decide)
    · rw [h2]
    all_goals exact absurd h1 (by decide)

theorem commitAll_page (secs : List Section) (q q' : Question)
    (h : commitAll secs q = .ok q') :
    match (secs.filter (heads .stateReadPage)).getLast? with
    | none => q'.page = q.page
    | some s => accumulated s.content = q'.page := by
  apply commitAll_field (fun q => q.page) .stateReadPage (fun v a => v = a) _ _ secs q q' h
  · intro q st v q' hne hs
    rcases set_eq_some q q' st v hs with ⟨_, h2⟩ | ⟨_, h2⟩ | ⟨_, n, _, h2⟩ | ⟨_, h2⟩ | ⟨h1, h2⟩ |
      ⟨_, h2⟩
    · rw [h2]
    · rw [h2]
    · rw [h2]
    · rw [h2]
    · exact absurd h1 hne
    · rw [h2]
  · intro q v q' hs
    rcases set_eq_some q q' _ v hs with ⟨h1, _⟩ | ⟨h1, _⟩ | ⟨h1, _⟩ | ⟨h1, _⟩ | ⟨_, h2⟩ | ⟨h1, _⟩
    · exact absurd h1 (by decide)
    · exact absurd h1 (by decide)
    · exact absurd h1 (by decide)
    · exact absurd h1 (by decide)
    · rw [h2]
    · exact absurd h1 (by decide)

theorem commitAll_Answer (secs : List Section) (q q' : Question)
    (h : commitAll secs q = .ok q') :
    match (secs.filter (heads .stateReadAnswer)).getLast? with
    | none => q'.Answer = q.Answer
    | some s => Atoi (accumulated s.content) = some q'.Answer := by
  apply commitAll_field (fun q => q.Answer) .stateReadAnswer (fun v a => Atoi v = some a)
    _ _ secs q q' h
  · intro q st v q' hne hs
    rcases set_eq_some q q' st v hs with ⟨_, h2⟩ | ⟨_, h2⟩ | ⟨h1, n, _, h2⟩ | ⟨_, h2⟩ | ⟨_, h2⟩ |
      ⟨_, h2⟩
    · rw [h2]
    · rw [h2]
    · exact absurd h1 hne
    all_goals rw [h2]
  · intro q v q' hs
    rcases set_eq_some q q' _ v hs with ⟨h1, _⟩ | ⟨h1, _⟩ | ⟨_, n, hn, h2⟩ | ⟨h1, _⟩ | ⟨h1, _⟩ |
      ⟨h1, _⟩
    · exact absurd h1 (by decide)
    · exact absurd h1 (by decide)
    · rw [h2]; exact hn
    all_goals exact absurd h1 (by decide)

theorem commitAll_Options (secs : List Section) (q q' : Question)
    (h : commitAll secs q = .ok q') :
    q'.Options = q.Options ++
      (secs.filter (heads .stateReadOption)).map (fun s => accumulated s.content) := by
  induction secs generalizing q with
  | nil =>
    simp only [commitAll, Except.ok.injEq] at h
    simp [h]
  | cons s rest ih =>
    obtain ⟨q1, h1, h2⟩ := commitAll_cons_ok s rest q q' h
    obtain ⟨st, hst, hs⟩ := commitSection_eq_ok q q1 s h1
    rw [ih q1 h2]
    by_cases hh : heads .stateReadOption s = true
    · rw [List.filter_cons_of_pos hh]
      have hst0 : st = .stateReadOption := by
        simp only [heads, decide_eq_true_eq] at hh
        rw [hst] at hh
        exact Option.some.inj hh
      subst hst0
      rcases set_eq_some q q1 _ _ hs with ⟨h1, _⟩ | ⟨_, h2⟩ | ⟨h1, _⟩ | ⟨h1, _⟩ | ⟨h1, _⟩ | ⟨h1, _⟩
      · exact absurd h1 (by decide)
      · rw [h2]; simp
      all_goals exact absurd h1 (by decide)
    · rw [List.filter_cons_of_neg hh]
      have hne : st ≠ .stateReadOption := by
        rintro rfl
        apply hh
        simp [heads, hst]
      rcases set_eq_some q q1 _ _ hs with ⟨_, h2⟩ | ⟨h1, _⟩ | ⟨_, n, _, h2⟩ | ⟨_, h2⟩ | ⟨_, h2⟩ |
        ⟨_, h2⟩
      · rw [h2]
      · exact absurd h1 hne
      all_goals rw [h2]

/-- Committing sections whose keywords are all recognised and whose answer
values are all accepted by `Atoi` does not fail. -/
theorem commitAll_succeeds (secs : List Section) (q : Question)
    (hk : ∀ s ∈ secs, ∃ st, nextState (keyword s.marker) = some st)
    (ha : ∀ s ∈ secs, nextState (keyword s.marker) = some .stateReadAnswer →
      ∃ n, Atoi (accumulated s.content) = some n) :
    ∃ q', commitAll secs q = .ok q' := by
  induction secs generalizing q with
  | nil => exact ⟨q, rfl⟩
  | cons s rest ih =>
    obtain ⟨st, hst⟩ := hk s (by simp)
    have hset : ∃ q1, q.set st (accumulated s.content) = some q1 := by
      cases st with
      | stateReadAnswer =>
        obtain ⟨n, hn⟩ := ha s (by simp) hst
        exact ⟨{ q with Answer := n }, by simp [Question.set, hn]⟩
      | _ => exact ⟨_, rfl⟩
    obtain ⟨q1, hq1⟩ := hset
    obtain ⟨q', hq'⟩ := ih q1 (fun x hx => hk x (by simp [hx])) (fun x hx => ha x (by simp [hx]))
    refine ⟨q', ?_⟩
    simp only [commitAll, commitSection, hst, hq1, hq']
/-- The function `parseBody` on a body given by its sections, all lines
fitting the scanner's buffer: the sections are committed in order, starting
from the zero record. -/
theorem parseBody_sections (pre : List (List Char)) (secs : List Section)
    (hnl : ∀ l ∈ pre ++ render secs, '\n' ∉ l)
    (hfit : ∀ l ∈ pre ++ render secs, utf8Len l < MaxScanTokenSize)
    (hpre : ∀ l ∈ pre, isMarker l = false) (hwf : WellFormed secs) :
    parseBody (joinLines (pre ++ render secs)) = commitAll secs {} := by
  rw [parseBody_joinLines _ hnl, takeWhile_fits_of_all _ (fun l hl => by
    simpa [fits] using hfit l hl)]
  exact finish_scanLoop_sections pre secs hpre hwf

/-- Every sequence of lines is a sequence of lines without a marker followed
by well-formed sections. -/
theorem exists_sections (ls : List (List Char)) :
    ∃ pre secs, ls = pre ++ render secs ∧ (∀ l ∈ pre, isMarker l = false) ∧
      WellFormed secs := by
  induction ls with
  | nil => exact ⟨[], [], rfl, by simp, by simp [WellFormed]⟩
  | cons l rest ih =>
    obtain ⟨pre, secs, h1, h2, h3⟩ := ih
    by_cases hl : isMarker l = true
    · refine ⟨[], ⟨l, pre⟩ :: secs, by simp [render, h1], by simp, ?_⟩
      intro s hs
      rcases List.mem_cons.1 hs with rfl | hs
      · exact ⟨hl, h2⟩
      · exact h3 s hs
    · refine ⟨l :: pre, secs, by simp [h1], ?_, h3⟩
      intro x hx
      rcases List.mem_cons.1 hx with rfl | hx
      · simpa using hl
      · exact h2 x hx

/-- Every body is the join of its lines, which are lines without a marker
followed by well-formed sections: the properties stated on
`joinLines (pre ++ render secs)` cover every body. -/
theorem body_eq_sections (body : List Char) :
    ∃ pre secs, body = joinLines (pre ++ render secs) ∧
      (∀ l ∈ pre ++ render secs, '\n' ∉ l) ∧ (∀ l ∈ pre, isMarker l = false) ∧
      WellFormed secs := by
  obtain ⟨pre, secs, h1, h2, h3⟩ := exists_sections (splitLines body)
  refine ⟨pre, secs, ?_, ?_, h2, h3⟩
  · rw [← h1, joinLines_splitLines]
  · rw [← h1]
    exact not_mem_of_mem_splitLines body

/-! ## No other failure cause (C10) -/

theorem filter_heads_eq_nil (st : state) (secs : List Section)
    (h : ∀ s ∈ secs, nextState (keyword s.marker) ≠ some st) :
    secs.filter (heads st) = [] := by
  rw [List.filter_eq_nil_iff]
  intro s hs
  simpa [heads] using h s hs

/-- C10, as amended: for every body all of whose lines are shorter than 65536
bytes, in which every marker line has the keyword `question`, `answer`,
`explain`, `page` or one that begins with `option`, and in which the
accumulated value of every `### answer` section is a base-10 integer in the
range of `int`, `parseBody` returns a record and no error; a field for which
the body has no section is the empty string, the empty list or 0. The empty
body and a body without marker lines are the cases `secs = []`. -/
theorem parseBody_succeeds (pre : List (List Char)) (secs : List Section)
    (hnl : ∀ l ∈ pre ++ render secs, '\n' ∉ l)
    (hfit : ∀ l ∈ pre ++ render secs, utf8Len l < MaxScanTokenSize)
    (hpre : ∀ l ∈ pre, isMarker l = false) (hwf : WellFormed secs)
    (hkw : ∀ s ∈ secs, keyword s.marker = "question".toList ∨
      keyword s.marker = "answer".toList ∨ keyword s.marker = "explain".toList ∨
      keyword s.marker = "page".toList ∨ HasPrefix (keyword s.marker) "option".toList = true)
    (hans : ∀ s ∈ secs, keyword s.marker = "answer".toList →
      ∃ n, DecimalForm (accumulated s.content) n ∧ FitsInt n) :
    ∃ q, parseBody (joinLines (pre ++ render secs)) = .ok q ∧
      ((∀ s ∈ secs, keyword s.marker ≠ "question".toList) → q.Question = []) ∧
      ((∀ s ∈ secs, HasPrefix (keyword s.marker) "option".toList = false) → q.Options = []) ∧
      ((∀ s ∈ secs, keyword s.marker ≠ "answer".toList) → q.Answer = 0) ∧
      ((∀ s ∈ secs, keyword s.marker ≠ "explain".toList) → q.Explain = []) ∧
      ((∀ s ∈ secs, keyword s.marker ≠ "page".toList) → q.page = []) := by
  rw [parseBody_sections pre secs hnl hfit hpre hwf]
  obtain ⟨q, hq⟩ := commitAll_succeeds secs {}
    (fun s hs => nextState_isSome_of_known _ (hkw s hs))
    (fun s hs hst => by
      obtain ⟨n, hd, hf⟩ := hans s hs ((nextState_answer _).1 hst)
      exact ⟨n, Atoi_of_DecimalForm _ n hd hf⟩)
  refine ⟨q, hq, ?_, ?_, ?_, ?_, ?_⟩
  · intro h
    have := commitAll_Question secs {} q hq
    rw [filter_heads_eq_nil _ secs (fun s hs e => h s hs ((nextState_question _).1 e))] at this
    exact this
  · intro h
    have := commitAll_Options secs {} q hq
    rw [filter_heads_eq_nil _ secs (fun s hs e => by
      have := (nextState_option _).1 e
      rw [h s hs] at this
      exact absurd this (by decide))] at this
    simpa using this
  · intro h
    have := commitAll_Answer secs {} q hq
    rw [filter_heads_eq_nil _ secs (fun s hs e => h s hs ((nextState_answer _).1 e))] at this
    exact this
  · intro h
    have := commitAll_Explain secs {} q hq
    rw [filter_heads_eq_nil _ secs (fun s hs e => h s hs ((nextState_explain _).1 e))] at this
    exact this
  · intro h
    have := commitAll_page secs {} q hq
    rw [filter_heads_eq_nil _ secs (fun s hs e => h s hs ((nextState_page _).1 e))] at this
    exact this

theorem DecimalForm_7 : DecimalForm (accumulated ["7".toList]) 7 ∧ FitsInt 7 := by
  refine ⟨⟨[7], by decide, by decide, Or.inl ⟨by decide, by decide⟩⟩, ?_⟩
  unfold FitsInt
  norm_num

/-- Witness for C10: a body with free text, one option section and an answer
section, and no question, explain or page section. -/
theorem parseBody_succeeds_witness :
    ∃ q, parseBody (joinLines (["hello".toList] ++
        render [⟨"### option-1".toList, ["a".toList, "b".toList]⟩,
          ⟨"### answer".toList, ["7".toList]⟩])) = .ok q ∧
      ((∀ s ∈ [(⟨"### option-1".toList, ["a".toList, "b".toList]⟩ : Section),
          ⟨"### answer".toList, ["7".toList]⟩],
        keyword s.marker ≠ "question".toList) → q.Question = []) ∧
      ((∀ s ∈ [(⟨"### option-1".toList, ["a".toList, "b".toList]⟩ : Section),
          ⟨"### answer".toList, ["7".toList]⟩],
        HasPrefix (keyword s.marker) "option".toList = false) → q.Options = []) ∧
      ((∀ s ∈ [(⟨"### option-1".toList, ["a".toList, "b".toList]⟩ : Section),
          ⟨"### answer".toList, ["7".toList]⟩],
        keyword s.marker ≠ "answer".toList) → q.Answer = 0) ∧
      ((∀ s ∈ [(⟨"### option-1".toList, ["a".toList, "b".toList]⟩ : Section),
          ⟨"### answer".toList, ["7".toList]⟩],
        keyword s.marker ≠ "explain".toList) → q.Explain = []) ∧
      ((∀ s ∈ [(⟨"### option-1".toList, ["a".toList, "b".toList]⟩ : Section),
          ⟨"### answer".toList, ["7".toList]⟩],
        keyword s.marker ≠ "page".toList) → q.page = []) :=
  parseBody_succeeds ["hello".toList]
    [⟨"### option-1".toList, ["a".toList, "b".toList]⟩, ⟨"### answer".toList, ["7".toList]⟩]
    (by decide) (by decide) (by decide) (by decide) (by decide)
    (fun s hs hk => by
      rcases List.mem_cons.1 hs with rfl | hs
      · exact absurd hk (by decide)
      · rcases List.mem_cons.1 hs with rfl | hs
        · exact ⟨7, DecimalForm_7⟩
        · simp at hs)
/-- Counterexample to C10 as stated: an `### answer` section whose content is a
line of 21846 ideographic spaces (65538 bytes) followed by the line `5` has the accumulated value `5`,
and `parseBody` fails, because the scanner stops at the long line and the
answer is set from the empty string. -/
theorem parseBody_fails_on_long_blank_line :
    WellFormed [⟨"### answer".toList, [longBlankLine, "5".toList]⟩] ∧
    keyword "### answer".toList = "answer".toList ∧
    (DecimalForm (accumulated [longBlankLine, "5".toList]) 5 ∧ FitsInt 5) ∧
    parseBody (joinLines ([] ++
      render [⟨"### answer".toList, [longBlankLine, "5".toList]⟩])) =
      .error (.failedSet .stateReadAnswer []) := by
  have htrim := TrimSpace_of_all_space _ isSpace_longBlankLine
  refine ⟨?_, by decide, ⟨?_, ?_⟩, ?_⟩
  · intro s hs
    rcases List.mem_cons.1 hs with rfl | hs
    · refine ⟨by decide, ?_⟩
      intro l hl
      rcases List.mem_cons.1 hl with rfl | hl
      · simp only [isMarker, htrim]
        rfl
      · rcases List.mem_cons.1 hl with rfl | hl
        · decide
        · simp at hl
    · simp at hs
  · simp only [accumulated, htrim, List.nil_append, List.append_nil]
    exact ⟨[5], by decide, by decide, Or.inl ⟨by decide, by decide⟩⟩
  · unfold FitsInt
    norm_num
  · have h : [] ++ render [(⟨"### answer".toList, [longBlankLine, "5".toList]⟩ :
        Section)] = ["### answer".toList, longBlankLine, "5".toList] := rfl
    have hnl : ∀ l ∈ ["### answer".toList, longBlankLine, "5".toList],
        '\n' ∉ l := by
      intro l hl
      rcases List.mem_cons.1 hl with rfl | hl
      · decide
      · rcases List.mem_cons.1 hl with rfl | hl
        · exact not_mem_longBlankLine
        · rcases List.mem_cons.1 hl with rfl | hl
          · decide
          · simp at hl
    rw [h, parseBody_joinLines _ hnl, List.takeWhile_cons_of_pos (by decide),
      List.takeWhile_cons_of_neg not_fits_longBlankLine]
    rfl

/-! ## Round trip (C1) -/

theorem filter_heads_congr (st : state) (p : List Char → Bool) (secs : List Section)
    (h : ∀ k, nextState k = some st ↔ p k = true) :
    secs.filter (heads st) = secs.filter (fun s => p (keyword s.marker)) := by
  apply List.filter_congr
  intro s _
  by_cases hp : p (keyword s.marker) = true
  · simp [heads, hp, (h _).2 hp]
  · have : nextState (keyword s.marker) ≠ some st := fun e => hp ((h _).1 e)
    simp [heads, hp, this]

theorem filter_eq_singleton_of_contentOf (p : List Char → Bool) (secs : List Section)
    (c : List (List Char)) (h : contentOf p secs = [c]) :
    ∃ s, secs.filter (fun s => p (keyword s.marker)) = [s] ∧ s.content = c ∧ s ∈ secs := by
  unfold contentOf at h
  rcases hf : secs.filter (fun s => p (keyword s.marker)) with _ | ⟨a, _ | ⟨b, bs⟩⟩
  · rw [hf] at h; simp at h
  · rw [hf] at h
    simp only [List.map_cons, List.map_nil, List.cons.injEq, and_true] at h
    refine ⟨a, hf, h, ?_⟩
    have : a ∈ secs.filter (fun s => p (keyword s.marker)) := by rw [hf]; simp
    exact (List.mem_filter.1 this).1
  · rw [hf] at h; simp at h

theorem accumulated_singleton (c : List Char) (h : TrimSpace c = c) : accumulated [c] = c := by
  simp [accumulated, h]

theorem accumulated_eq_flatten (c : List (List Char)) :
    accumulated c = (c.map TrimSpace).flatten := by
  induction c with
  | nil => rfl
  | cons l ls ih => simp [accumulated, ih]
theorem mem_render_iff (secs : List Section) (l : List Char) :
    l ∈ render secs ↔ ∃ s ∈ secs, l = s.marker ∨ l ∈ s.content := by
  constructor
  · exact not_mem_render secs l
  · rintro ⟨s, hs, h⟩
    induction secs with
    | nil => simp at hs
    | cons t rest ih =>
      simp only [render, List.mem_cons, List.mem_append]
      rcases List.mem_cons.1 hs with rfl | hs
      · rcases h with h | h
        · exact Or.inl h
        · exact Or.inr (Or.inl h)
      · exact Or.inr (Or.inr (ih hs))

/-- C1, as amended: for every body made of one `### question` section, any
number of sections whose keyword begins with `option`, one `### answer`
section, one `### explain` section and one `### page` section, in any order,
each marker line followed by one content line that is already trimmed and not
itself a marker line, every line being shorter than 65536 bytes and the
answer's content line being a decimal numeral of an integer `n` in the range
of the 64-bit `int`, `parseBody` returns the record whose `Question`,
`Explain` and `page` are the content lines of their sections, whose `Options`
are the content lines of the option sections in marker order, and whose
`Answer` is `n`. -/
theorem parseBody_round_trip (secs : List Section) (n : Int) (qc ac ec pc : List Char)
    (opts : List (List Char))
    (hnl : ∀ l ∈ render secs, '\n' ∉ l)
    (hfit : ∀ l ∈ render secs, utf8Len l < MaxScanTokenSize)
    (hm : ∀ s ∈ secs, isMarker s.marker = true)
    (hone : ∀ s ∈ secs, s.content.length = 1 ∧
      ∀ c ∈ s.content, TrimSpace c = c ∧ isMarker c = false)
    (hkw : ∀ s ∈ secs, keyword s.marker = "question".toList ∨
      keyword s.marker = "answer".toList ∨ keyword s.marker = "explain".toList ∨
      keyword s.marker = "page".toList ∨ HasPrefix (keyword s.marker) "option".toList = true)
    (hq : contentOf (fun k => decide (k = "question".toList)) secs = [[qc]])
    (ha : contentOf (fun k => decide (k = "answer".toList)) secs = [[ac]])
    (he : contentOf (fun k => decide (k = "explain".toList)) secs = [[ec]])
    (hp : contentOf (fun k => decide (k = "page".toList)) secs = [[pc]])
    (ho : contentOf (fun k => HasPrefix k "option".toList) secs = opts.map (fun o => [o]))
    (hn : DecimalForm ac n) (hfn : FitsInt n) :
    parseBody (joinLines (render secs)) =
      .ok { Question := qc, Options := opts, Answer := n, Explain := ec, page := pc } := by
  have hc : ∀ s ∈ secs, ∃ c, s.content = [c] ∧ TrimSpace c = c ∧ isMarker c = false := by
    intro s hs
    obtain ⟨h1, h2⟩ := hone s hs
    obtain ⟨c, hc⟩ := List.length_eq_one.1 h1
    exact ⟨c, hc, h2 c (by simp [hc])⟩
  have hwf : WellFormed secs := by
    intro s hs
    refine ⟨hm s hs, ?_⟩
    obtain ⟨c, h1, _, h3⟩ := hc s hs
    intro l hl
    rw [h1] at hl
    rcases List.mem_cons.1 hl with rfl | hl
    · exact h3
    · simp at hl
  have hacc : ∀ s ∈ secs, ∀ c, s.content = [c] → accumulated s.content = c := by
    intro s hs c h
    obtain ⟨c', h1, h2, _⟩ := hc s hs
    rw [h1] at h
    have : c' = c := by simpa using h
    subst this
    rw [h1]
    exact accumulated_singleton c' h2
  obtain ⟨sq, hsq, hsqc, hsqm⟩ := filter_eq_singleton_of_contentOf _ secs _ hq
  obtain ⟨sa, hsa, hsac, hsam⟩ := filter_eq_singleton_of_contentOf _ secs _ ha
  obtain ⟨se, hse, hsec, hsem⟩ := filter_eq_singleton_of_contentOf _ secs _ he
  obtain ⟨sp, hsp, hspc, hspm⟩ := filter_eq_singleton_of_contentOf _ secs _ hp
  rw [← filter_heads_congr .stateReadQuestion (fun k => decide (k = "question".toList)) secs (fun k => by
    simpa using nextState_question k)] at hsq
  rw [← filter_heads_congr .stateReadAnswer (fun k => decide (k = "answer".toList)) secs (fun k => by
    simpa using nextState_answer k)] at hsa
  rw [← filter_heads_congr .stateReadExplain (fun k => decide (k = "explain".toList)) secs (fun k => by
    simpa using nextState_explain k)] at hse
  rw [← filter_heads_congr .stateReadPage (fun k => decide (k = "page".toList)) secs (fun k => by
    simpa using nextState_page k)] at hsp
  unfold contentOf at ho
  rw [← filter_heads_congr .stateReadOption (fun k => HasPrefix k "option".toList) secs
    (fun k => nextState_option k)] at ho
  have hans : ∀ s ∈ secs, nextState (keyword s.marker) = some .stateReadAnswer →
      ∃ m, Atoi (accumulated s.content) = some m := by
    intro s hs hst
    have hmem : s ∈ secs.filter (heads .stateReadAnswer) :=
      List.mem_filter.2 ⟨hs, by simp [heads, hst]⟩
    rw [hsa] at hmem
    have : s = sa := by simpa using hmem
    subst this
    rw [hacc s hs ac hsac]
    exact ⟨n, Atoi_of_DecimalForm ac n hn hfn⟩
  have h0 := parseBody_sections [] secs (by simpa using hnl) (by simpa using hfit)
    (by simp) hwf
  simp only [List.nil_append] at h0
  rw [h0]
  obtain ⟨q, hq'⟩ := commitAll_succeeds secs {}
    (fun s hs => nextState_isSome_of_known _ (hkw s hs)) hans
  rw [hq']
  have h1 := commitAll_Question secs {} q hq'
  have h2 := commitAll_Answer secs {} q hq'
  have h3 := commitAll_Explain secs {} q hq'
  have h4 := commitAll_page secs {} q hq'
  have h5 := commitAll_Options secs {} q hq'
  rw [hsq] at h1
  rw [hsa] at h2
  rw [hse] at h3
  rw [hsp] at h4
  simp only [List.getLast?_singleton] at h1 h2 h3 h4
  rw [hacc sq hsqm qc hsqc] at h1
  rw [hacc sa hsam ac hsac, Atoi_of_DecimalForm ac n hn hfn] at h2
  rw [hacc se hsem ec hsec] at h3
  rw [hacc sp hspm pc hspc] at h4
  have h6 : (secs.filter (heads .stateReadOption)).map (fun s => accumulated s.content) =
      opts := by
    have hmap : (secs.filter (heads .stateReadOption)).map (fun s => accumulated s.content) =
        ((secs.filter (heads .stateReadOption)).map Section.content).map
          (fun c => c.headD []) := by
      rw [List.map_map]
      apply List.map_congr_left
      intro s hs
      have hs' := (List.mem_filter.1 hs).1
      obtain ⟨c, hc1, _, _⟩ := hc s hs'
      simp only [Function.comp]
      rw [hacc s hs' c hc1, hc1]
      rfl
    rw [hmap, ho, List.map_map]
    have hid : ((fun c : List (List Char) => c.headD []) ∘ fun o => [o]) = id := by
      funext o
      rfl
    rw [hid, List.map_id]
  rw [h6] at h5
  simp only [Option.some.injEq] at h2
  cases q
  simp only [] at h1 h2 h3 h4 h5
  simp only [List.nil_append] at h5
  subst h1 h2 h3 h4 h5
  rfl

theorem DecimalForm_1 : DecimalForm "1".toList 1 ∧ FitsInt 1 := by
  refine ⟨⟨[1], by decide, by decide, Or.inl ⟨by decide, by decide⟩⟩, ?_⟩
  unfold FitsInt
  norm_num

/-- Witness for C1: the body of the specification's test, with two option
sections and the answer before the options. -/
theorem parseBody_round_trip_witness :
    parseBody (joinLines (render [⟨"### question".toList, ["What?".toList]⟩,
      ⟨"### answer".toList, ["1".toList]⟩, ⟨"### option-1".toList, ["A".toList]⟩,
      ⟨"### option-2".toList, ["B".toList]⟩, ⟨"### explain".toList, ["because".toList]⟩,
      ⟨"### page".toList, ["exam1".toList]⟩])) =
    .ok { Question := "What?".toList, Options := ["A".toList, "B".toList], Answer := 1,
          Explain := "because".toList, page := "exam1".toList } :=
  parseBody_round_trip _ 1 "What?".toList "1".toList "because".toList "exam1".toList
    ["A".toList, "B".toList] (by decide) (by decide) (by decide) (by decide) (by decide)
    (by decide) (by decide) (by decide) (by decide) (by decide) DecimalForm_1.1 DecimalForm_1.2

/-- Counterexample to C1 as stated: the answer line `9223372036854775808` is the
decimal form of the integer 2^63, every line is trimmed, non-blank and short,
and `parseBody` fails, because the value is not in the range of `int`. -/
theorem round_trip_fails_outside_int :
    DecimalForm "9223372036854775808".toList (2 ^ 63) ∧
    parseBody (joinLines (render [⟨"### question".toList, ["What?".toList]⟩,
      ⟨"### option-1".toList, ["A".toList]⟩, ⟨"### option-2".toList, ["B".toList]⟩,
      ⟨"### answer".toList, ["9223372036854775808".toList]⟩,
      ⟨"### explain".toList, ["because".toList]⟩, ⟨"### page".toList, ["exam1".toList]⟩])) =
    .error (.failedSet .stateReadAnswer "9223372036854775808".toList) := by
  refine ⟨⟨[9, 2, 2, 3, 3, 7, 2, 0, 3, 6, 8, 5, 4, 7, 7, 5, 8, 0, 8], by decide, by decide,
    Or.inl ⟨by decide, by decide⟩⟩, ?_⟩
  rfl
/-! ## The sections the scanner reads -/

theorem render_append (a b : List Section) : render (a ++ b) = render a ++ render b := by
  induction a with
  | nil => rfl
  | cons s rest ih => simp [render, ih]

/-- The lines of a sequence of sections that the scanner delivers are again
the lines of a sequence of sections: the sections before the first line that
does not fit, the last of them cut at that line. -/
theorem takeWhile_fits_render (secs : List Section) :
    ∃ secs', (render secs).takeWhile fits = render secs' ∧
      ∀ t ∈ secs', ∃ t0 ∈ secs, t.marker = t0.marker ∧ ∀ l ∈ t.content, l ∈ t0.content := by
  induction secs with
  | nil => exact ⟨[], rfl, by simp⟩
  | cons s rest ih =>
    obtain ⟨rest', h1, h2⟩ := ih
    by_cases hm : fits s.marker = true
    · by_cases hc : ∀ l ∈ s.content, fits l = true
      · refine ⟨s :: rest', ?_, ?_⟩
        · simp only [render]
          rw [List.takeWhile_cons_of_pos hm, takeWhile_fits_append _ _ hc, h1]
        · intro t ht
          rcases List.mem_cons.1 ht with rfl | ht
          · exact ⟨t, by simp, rfl, fun l hl => hl⟩
          · obtain ⟨t0, ht0, h⟩ := h2 t ht
            exact ⟨t0, by simp [ht0], h⟩
      · refine ⟨[⟨s.marker, s.content.takeWhile fits⟩], ?_, ?_⟩
        · simp only [render]
          rw [List.takeWhile_cons_of_pos hm, takeWhile_fits_append_of_not_all _ _ hc]
          simp
        · intro t ht
          have : t = ⟨s.marker, s.content.takeWhile fits⟩ := by simpa using ht
          subst this
          exact ⟨s, by simp, rfl, fun l hl => (List.takeWhile_sublist _).subset hl⟩
    · refine ⟨[], ?_, by simp⟩
      simp only [render]
      rw [List.takeWhile_cons_of_neg hm]

theorem wellFormed_of_read (secs secs' : List Section) (hwf : WellFormed secs)
    (h : ∀ t ∈ secs', ∃ t0 ∈ secs, t.marker = t0.marker ∧ ∀ l ∈ t.content, l ∈ t0.content) :
    WellFormed secs' := by
  intro t ht
  obtain ⟨t0, ht0, hm, hc⟩ := h t ht
  exact ⟨by rw [hm]; exact (hwf t0 ht0).1, fun l hl => (hwf t0 ht0).2 l (hc l hl)⟩

/-- The function `parseBody` on a body whose lines fit the scanner's buffer up
to the end of the section `s`: the sections up to `s` are committed in order,
followed by the sections of the rest that the scanner still reads. -/
theorem parseBody_sections_upto (pre : List (List Char)) (secs1 secs2 : List Section)
    (s : Section)
    (hnl : ∀ l ∈ pre ++ render (secs1 ++ s :: secs2), '\n' ∉ l)
    (hfit : ∀ l ∈ pre ++ render secs1 ++ s.marker :: s.content,
      utf8Len l < MaxScanTokenSize)
    (hpre : ∀ l ∈ pre, isMarker l = false) (hwf : WellFormed (secs1 ++ s :: secs2)) :
    ∃ secs2', parseBody (joinLines (pre ++ render (secs1 ++ s :: secs2))) =
        commitAll (secs1 ++ s :: secs2') {} ∧
      ∀ t ∈ secs2', ∃ t0 ∈ secs2, t.marker = t0.marker := by
  obtain ⟨secs2', h1, h2⟩ := takeWhile_fits_render secs2
  have hwf2 : WellFormed secs2' :=
    wellFormed_of_read secs2 secs2' (fun t ht => hwf t (by simp [ht])) h2
  have hwf' : WellFormed (secs1 ++ s :: secs2') := by
    intro t ht
    rcases List.mem_append.1 ht with h | h
    · exact hwf t (by simp [h])
    · rcases List.mem_cons.1 h with rfl | h
      · exact hwf t (by simp)
      · exact hwf2 t h
  refine ⟨secs2', ?_, fun t ht => ?_⟩
  · rw [parseBody_joinLines _ hnl]
    have e1 : pre ++ render (secs1 ++ s :: secs2) =
        (pre ++ render secs1 ++ s.marker :: s.content) ++ render secs2 := by
      simp [render_append, render]
    have e2 : (pre ++ render secs1 ++ s.marker :: s.content) ++ render secs2' =
        pre ++ render (secs1 ++ s :: secs2') := by
      simp [render_append, render]
    rw [e1, takeWhile_fits_append _ _ (fun l hl => by simpa [fits] using hfit l hl), h1, e2]
    exact finish_scanLoop_sections pre _ hpre hwf'
  · obtain ⟨t0, ht0, hm, _⟩ := h2 t ht
    exact ⟨t0, ht0, hm⟩

/-! ## Multi-line accumulation (C8) -/

theorem filter_heads_last (st : state) (secs1 secs2 : List Section) (s : Section)
    (hs : nextState (keyword s.marker) = some st)
    (h2 : ∀ t ∈ secs2, nextState (keyword t.marker) ≠ some st) :
    ((secs1 ++ s :: secs2).filter (heads st)).getLast? = some s := by
  have hh : heads st s = true := by simp [heads, hs]
  rw [List.filter_append, List.filter_cons_of_pos hh, filter_heads_eq_nil st secs2 h2]
  simp

/-- C8, as amended: in a body that `parseBody` parses successfully, the value
committed for a section with the content lines `l1 .. lm`, every line of the
body up to the end of that section being shorter than 65536 bytes, is
`trim(l1) ++ ... ++ trim(lm)`, nothing in between: it is the field
`Question`, `Explain` or `page` of the record when no later section has the
same keyword, the entry of `Options` at the section's position among the
option sections, and the numeral `Atoi` reads for `Answer`. -/
theorem parseBody_multi_line (pre : List (List Char)) (secs1 secs2 : List Section)
    (s : Section) (q : Question)
    (hnl : ∀ l ∈ pre ++ render (secs1 ++ s :: secs2), '\n' ∉ l)
    (hfit : ∀ l ∈ pre ++ render secs1 ++ s.marker :: s.content,
      utf8Len l < MaxScanTokenSize)
    (hpre : ∀ l ∈ pre, isMarker l = false) (hwf : WellFormed (secs1 ++ s :: secs2))
    (hok : parseBody (joinLines (pre ++ render (secs1 ++ s :: secs2))) = .ok q) :
    (keyword s.marker = "question".toList →
      (∀ t ∈ secs2, keyword t.marker ≠ "question".toList) →
      q.Question = (s.content.map TrimSpace).flatten) ∧
    (keyword s.marker = "explain".toList →
      (∀ t ∈ secs2, keyword t.marker ≠ "explain".toList) →
      q.Explain = (s.content.map TrimSpace).flatten) ∧
    (keyword s.marker = "page".toList →
      (∀ t ∈ secs2, keyword t.marker ≠ "page".toList) →
      q.page = (s.content.map TrimSpace).flatten) ∧
    (HasPrefix (keyword s.marker) "option".toList = true →
      q.Options[(contentOf (fun k => HasPrefix k "option".toList) secs1).length]? =
        some ((s.content.map TrimSpace).flatten)) ∧
    (keyword s.marker = "answer".toList →
      (∀ t ∈ secs2, keyword t.marker ≠ "answer".toList) →
      Atoi ((s.content.map TrimSpace).flatten) = some q.Answer) := by
  obtain ⟨secs2', hparse, hread⟩ := parseBody_sections_upto pre secs1 secs2 s hnl hfit hpre hwf
  rw [hparse] at hok
  have hlater : ∀ k : List Char, (∀ t ∈ secs2, keyword t.marker ≠ k) →
      ∀ t ∈ secs2', keyword t.marker ≠ k := by
    intro k h t ht
    obtain ⟨t0, ht0, hm⟩ := hread t ht
    rw [hm]
    exact h t0 ht0
  rw [← accumulated_eq_flatten]
  refine ⟨?_, ?_, ?_, ?_, ?_⟩
  · intro hk h2
    have := commitAll_Question _ {} q hok
    rw [filter_heads_last _ secs1 secs2' s ((nextState_question _).2 hk)
      (fun t ht e => hlater _ h2 t ht ((nextState_question _).1 e))] at this
    exact this.symm
  · intro hk h2
    have := commitAll_Explain _ {} q hok
    rw [filter_heads_last _ secs1 secs2' s ((nextState_explain _).2 hk)
      (fun t ht e => hlater _ h2 t ht ((nextState_explain _).1 e))] at this
    exact this.symm
  · intro hk h2
    have := commitAll_page _ {} q hok
    rw [filter_heads_last _ secs1 secs2' s ((nextState_page _).2 hk)
      (fun t ht e => hlater _ h2 t ht ((nextState_page _).1 e))] at this
    exact this.symm
  · intro hk
    have := commitAll_Options _ {} q hok
    have hh : heads .stateReadOption s = true := by
      simp [heads, (nextState_option _).2 hk]
    rw [List.filter_append, List.filter_cons_of_pos hh,
      filter_heads_congr .stateReadOption (fun k => HasPrefix k "option".toList) secs1
        (fun k => nextState_option k)] at this
    simp only [List.nil_append, List.map_append, List.map_cons] at this
    rw [this]
    unfold contentOf
    rw [List.length_map]
    have hlen : (List.map (fun s => accumulated s.content)
        (List.filter (fun s => HasPrefix (keyword s.marker) "option".toList) secs1)).length =
        (List.filter (fun s => HasPrefix (keyword s.marker) "option".toList) secs1).length := by
      simp
    rw [← hlen, List.getElem?_append_right (le_refl _)]
    simp
  · intro hk h2
    have := commitAll_Answer _ {} q hok
    rw [filter_heads_last _ secs1 secs2' s ((nextState_answer _).2 hk)
      (fun t ht e => hlater _ h2 t ht ((nextState_answer _).1 e))] at this
    exact this

theorem multi_line_probe_nl :
    ∀ l ∈ [] ++ render ([] ++ (⟨"### question".toList, ["a".toList, "b".toList]⟩ : Section) ::
      [⟨"### explain".toList, [longLine]⟩]), '\n' ∉ l := by
  intro l hl
  have h : [] ++ render ([] ++ (⟨"### question".toList, ["a".toList, "b".toList]⟩ : Section) ::
      [⟨"### explain".toList, [longLine]⟩]) =
      ["### question".toList, "a".toList, "b".toList, "### explain".toList, longLine] := rfl
  rw [h] at hl
  simp only [List.mem_cons, List.mem_singleton, List.not_mem_nil, or_false] at hl
  rcases hl with rfl | rfl | rfl | rfl | rfl
  · decide
  · decide
  · decide
  · decide
  · exact not_mem_longLine

theorem multi_line_probe_ok :
    parseBody (joinLines ([] ++ render ([] ++
      (⟨"### question".toList, ["a".toList, "b".toList]⟩ : Section) ::
      [⟨"### explain".toList, [longLine]⟩]))) = .ok { Question := "ab".toList } := by
  have h : [] ++ render ([] ++ (⟨"### question".toList, ["a".toList, "b".toList]⟩ : Section) ::
      [⟨"### explain".toList, [longLine]⟩]) =
      ["### question".toList, "a".toList, "b".toList, "### explain".toList, longLine] := rfl
  have hnl := multi_line_probe_nl
  rw [h] at hnl ⊢
  rw [parseBody_joinLines _ hnl, List.takeWhile_cons_of_pos (by decide),
    List.takeWhile_cons_of_pos (by decide), List.takeWhile_cons_of_pos (by decide),
    List.takeWhile_cons_of_pos (by decide), List.takeWhile_cons_of_neg not_fits_longLine]
  rfl

theorem wellFormed_probe :
    WellFormed ([] ++ (⟨"### question".toList, ["a".toList, "b".toList]⟩ : Section) ::
      [⟨"### explain".toList, [longLine]⟩]) := by
  intro t ht
  simp only [List.nil_append, List.mem_cons, List.mem_singleton, List.not_mem_nil,
    or_false] at ht
  rcases ht with rfl | rfl
  · decide
  · refine ⟨by decide, fun l hl => ?_⟩
    have : l = longLine := by simpa using hl
    subst this
    unfold isMarker
    rw [TrimSpace_longLine]
    rfl

/-- Witness for C8: a question section of two content lines, followed by an
explain section whose content line does not fit the scanner's buffer. -/
theorem parseBody_multi_line_witness :
    "ab".toList = ((["a".toList, "b".toList].map TrimSpace).flatten) :=
  (parseBody_multi_line [] [] [⟨"### explain".toList, [longLine]⟩]
    ⟨"### question".toList, ["a".toList, "b".toList]⟩ { Question := "ab".toList }
    multi_line_probe_nl (by decide) (by decide) wellFormed_probe multi_line_probe_ok).1
    (by decide) (by decide)

/-- Counterexample to C8 as stated: a question section with the content lines
`ab` and a line of 65538 bytes is parsed successfully, and the value
committed for it is `ab` alone. -/
theorem multi_line_value_truncated :
    parseBody (joinLines ([] ++ render ([] ++
      (⟨"### question".toList, ["ab".toList, longLine]⟩ : Section) :: []))) =
      .ok { Question := "ab".toList } ∧
    "ab".toList ≠ (["ab".toList, longLine].map TrimSpace).flatten := by
  constructor
  · have h : [] ++ render ([] ++
        (⟨"### question".toList, ["ab".toList, longLine]⟩ : Section) :: []) =
        ["### question".toList, "ab".toList, longLine] := rfl
    have hnl : ∀ l ∈ ["### question".toList, "ab".toList, longLine],
        '\n' ∉ l := by
      intro l hl
      rcases List.mem_cons.1 hl with rfl | hl
      · decide
      · rcases List.mem_cons.1 hl with rfl | hl
        · decide
        · rcases List.mem_cons.1 hl with rfl | hl
          · exact not_mem_longLine
          · simp at hl
    rw [h, parseBody_joinLines _ hnl, List.takeWhile_cons_of_pos (by decide),
      List.takeWhile_cons_of_pos (by decide), List.takeWhile_cons_of_neg not_fits_longLine]
    rfl
  · intro h
    have hmem : '\u4e2d' ∈ (["ab".toList, longLine].map TrimSpace).flatten := by
      simp only [List.map_cons, List.map_nil, List.flatten_cons, List.flatten_nil,
        TrimSpace_longLine, List.append_nil]
      exact List.mem_append_right _ mem_longLine
    rw [← h] at hmem
    exact absurd hmem (by decide)

/-! ## A later occurrence overwrites the earlier one (C9) -/

/-- Two records that differ at most in the field of `st` are taken by one
section to the same error, or to records that again differ at most in that
field and are equal when the section sets it. -/
theorem commitSection_eraseField (st : state) (s : Section) (q1 q2 : Question)
    (h : eraseField st q1 = eraseField st q2) :
    match commitSection q1 s, commitSection q2 s with
    | .error e1, .error e2 => e1 = e2
    | .ok a, .ok b => eraseField st a = eraseField st b ∧ (heads st s = true → a = b)
    | _, _ => False := by
  unfold commitSection heads
  cases hn : nextState (keyword s.marker) with
  | none => simp
  | some st' =>
    cases q1
    cases q2
    cases st' <;> cases st <;> simp only [eraseField, Question.mk.injEq] at h <;>
      simp only [Question.set]
    all_goals (cases Atoi (accumulated s.content) <;> simp [eraseField, h])

theorem commitAll_eraseField (st : state) (secs : List Section) (q1 q2 : Question)
    (h : eraseField st q1 = eraseField st q2) (hany : secs.any (heads st) = true) :
    commitAll secs q1 = commitAll secs q2 := by
  induction secs generalizing q1 q2 with
  | nil => simp at hany
  | cons s rest ih =>
    have hs := commitSection_eraseField st s q1 q2 h
    simp only [commitAll]
    cases h1 : commitSection q1 s with
    | error e1 =>
      cases h2 : commitSection q2 s with
      | error e2 =>
        rw [h1, h2] at hs
        simp only [] at hs
        rw [hs]
      | ok b => rw [h1, h2] at hs; exact absurd hs (by simp)
    | ok a =>
      cases h2 : commitSection q2 s with
      | error e2 => rw [h1, h2] at hs; exact absurd hs (by simp)
      | ok b =>
        rw [h1, h2] at hs
        simp only [] at hs
        by_cases hh : heads st s = true
        · rw [hs.2 hh]
        · simp only [List.any_cons, Bool.or_eq_true] at hany
          rcases hany with hany | hany
          · exact absurd hany hh
          · exact ih a b hs.1 hany

theorem commitSection_singular (st : state) (s : Section) (q : Question)
    (hs : nextState (keyword s.marker) = some st)
    (hst : st = .stateReadQuestion ∨ st = .stateReadExplain ∨ st = .stateReadPage ∨
      (st = .stateReadAnswer ∧ ∃ n, Atoi (accumulated s.content) = some n)) :
    ∃ q1, commitSection q s = .ok q1 ∧ eraseField st q1 = eraseField st q := by
  unfold commitSection
  rw [hs]
  rcases hst with rfl | rfl | rfl | ⟨rfl, n, hn⟩
  · exact ⟨_, rfl, rfl⟩
  · exact ⟨_, rfl, rfl⟩
  · exact ⟨_, rfl, rfl⟩
  · refine ⟨{ q with Answer := n }, ?_, rfl⟩
    simp [Question.set, hn]

/-- Sections of the state `st` that are followed by a section of that state
and do not fail can be left out. -/
theorem commitAll_filter_earlier (st : state) (secs1 rest : List Section)
    (hany : rest.any (heads st) = true)
    (hv : ∀ t ∈ secs1, heads st t = true →
      ∀ q, ∃ q1, commitSection q t = .ok q1 ∧ eraseField st q1 = eraseField st q)
    (q : Question) :
    commitAll (secs1 ++ rest) q =
      commitAll (secs1.filter (fun t => !heads st t) ++ rest) q := by
  induction secs1 generalizing q with
  | nil => rfl
  | cons a A ih =>
    have hv' : ∀ t ∈ A, heads st t = true →
        ∀ q, ∃ q1, commitSection q t = .ok q1 ∧ eraseField st q1 = eraseField st q :=
      fun t ht => hv t (by simp [ht])
    by_cases ha : heads st a = true
    · obtain ⟨q1, hq1, he⟩ := hv a (by simp) ha q
      rw [List.filter_cons_of_neg (by simp [ha])]
      simp only [List.cons_append, commitAll, hq1]
      show commitAll (A ++ rest) q1 = _
      rw [ih hv' q1]
      apply commitAll_eraseField st _ q1 q he
      simp only [List.any_append, hany, Bool.or_true]
    · rw [List.filter_cons_of_pos (by simp [ha])]
      simp only [List.cons_append, commitAll]
      cases commitSection q a with
      | error e => rfl
      | ok q1 => exact ih hv' q1

/-- What the scanner delivers of the content of a section and the sections
after it: a first part of the content, followed by sections. -/
theorem takeWhile_fits_content_render (c : List (List Char)) (secs2 : List Section) :
    ∃ c' secs2', (c ++ render secs2).takeWhile fits = c' ++ render secs2' ∧
      (∀ l ∈ c', l ∈ c) ∧
      ∀ t ∈ secs2', ∃ t0 ∈ secs2, t.marker = t0.marker ∧ ∀ l ∈ t.content, l ∈ t0.content := by
  by_cases hc : ∀ l ∈ c, fits l = true
  · obtain ⟨secs2', h1, h2⟩ := takeWhile_fits_render secs2
    exact ⟨c, secs2', by rw [takeWhile_fits_append _ _ hc, h1], fun l hl => hl, h2⟩
  · refine ⟨c.takeWhile fits, [], ?_, fun l hl => (List.takeWhile_sublist _).subset hl, by simp⟩
    rw [takeWhile_fits_append_of_not_all _ _ hc]
    simp [render]

/-- The function `parseBody` on a body whose lines fit the scanner's buffer up
to the marker line of the section `s`, given what the scanner delivers of the
lines after that marker. -/
theorem parseBody_sections_read (pre : List (List Char)) (secs1 secs2 secs2' : List Section)
    (s : Section) (c' : List (List Char))
    (htail : (s.content ++ render secs2).takeWhile fits = c' ++ render secs2')
    (hnl : ∀ l ∈ pre ++ render (secs1 ++ s :: secs2), '\n' ∉ l)
    (hfit : ∀ l ∈ pre ++ render secs1 ++ [s.marker], utf8Len l < MaxScanTokenSize)
    (hpre : ∀ l ∈ pre, isMarker l = false)
    (hwf : WellFormed (secs1 ++ ⟨s.marker, c'⟩ :: secs2')) :
    parseBody (joinLines (pre ++ render (secs1 ++ s :: secs2))) =
      commitAll (secs1 ++ ⟨s.marker, c'⟩ :: secs2') {} := by
  rw [parseBody_joinLines _ hnl]
  have e1 : pre ++ render (secs1 ++ s :: secs2) =
      (pre ++ render secs1 ++ [s.marker]) ++ (s.content ++ render secs2) := by
    simp [render_append, render]
  have e2 : (pre ++ render secs1 ++ [s.marker]) ++ (c' ++ render secs2') =
      pre ++ render (secs1 ++ ⟨s.marker, c'⟩ :: secs2') := by
    simp [render_append, render]
  rw [e1, takeWhile_fits_append _ _ (fun l hl => by simpa [fits] using hfit l hl), htail, e2]
  exact finish_scanLoop_sections pre _ hpre hwf

theorem mem_render_filter (p : Section → Bool) (secs1 rest : List Section) (l : List Char)
    (h : l ∈ render (secs1.filter p ++ rest)) : l ∈ render (secs1 ++ rest) := by
  rw [mem_render_iff] at h ⊢
  obtain ⟨t, ht, hl⟩ := h
  refine ⟨t, ?_, hl⟩
  rcases List.mem_append.1 ht with h | h
  · exact List.mem_append_left _ (List.mem_filter.1 h).1
  · exact List.mem_append_right _ h

/-- C9, as amended: for every body and every keyword `k` among `question`,
`answer`, `explain` and `page`, if `s` is a section of keyword `k` (the last
one, in the case of the claim) and every line up to and including the marker
line of `s` is shorter than 65536 bytes, then `parseBody` returns exactly what
it returns for the same body with every section of keyword `k` before `s`
removed, provided, when `k` is `answer`, that the accumulated value of every
removed answer section is a base-10 integer in the range of `int`. When the
accumulated value of an answer section before `s` is not such an integer,
`parseBody` returns an error. -/
theorem parseBody_overwrite (k : List Char) (pre : List (List Char))
    (secs1 secs2 : List Section) (s : Section)
    (hk : k = "question".toList ∨ k = "answer".toList ∨ k = "explain".toList ∨
      k = "page".toList)
    (hnl : ∀ l ∈ pre ++ render (secs1 ++ s :: secs2), '\n' ∉ l)
    (hfit : ∀ l ∈ pre ++ render secs1 ++ [s.marker], utf8Len l < MaxScanTokenSize)
    (hpre : ∀ l ∈ pre, isMarker l = false) (hwf : WellFormed (secs1 ++ s :: secs2))
    (hs : keyword s.marker = k) :
    ((k = "answer".toList → ∀ t ∈ secs1, keyword t.marker = k →
        ∃ n, DecimalForm (accumulated t.content) n ∧ FitsInt n) →
      parseBody (joinLines (pre ++ render (secs1 ++ s :: secs2))) =
        parseBody (joinLines (pre ++
          render (secs1.filter (fun t => decide (keyword t.marker ≠ k)) ++ s :: secs2)))) ∧
    (∀ t ∈ secs1, keyword t.marker = "answer".toList →
      (¬ ∃ n, DecimalForm (accumulated t.content) n ∧ FitsInt n) →
      ∃ e, parseBody (joinLines (pre ++ render (secs1 ++ s :: secs2))) = .error e) := by
  obtain ⟨c', secs2', htail, hc', h2'⟩ := takeWhile_fits_content_render s.content secs2
  have hwf1 : WellFormed secs1 := fun t ht => hwf t (by simp [ht])
  have hwfs : WellFormed (⟨s.marker, c'⟩ :: secs2') := by
    intro t ht
    rcases List.mem_cons.1 ht with rfl | ht
    · exact ⟨(hwf s (by simp)).1, fun l hl => (hwf s (by simp)).2 l (hc' l hl)⟩
    · exact wellFormed_of_read secs2 secs2' (fun t ht => hwf t (by simp [ht])) h2' t ht
  have hwf' : ∀ X : List Section, WellFormed X → WellFormed (X ++ ⟨s.marker, c'⟩ :: secs2') := by
    intro X hX t ht
    rcases List.mem_append.1 ht with h | h
    · exact hX t h
    · exact hwfs t h
  have horig := parseBody_sections_read pre secs1 secs2 secs2' s c' htail hnl hfit hpre
    (hwf' secs1 hwf1)
  constructor
  · intro hans
    have hmem : ∀ l ∈ pre ++ render (secs1.filter (fun t => decide (keyword t.marker ≠ k)) ++
        s :: secs2), l ∈ pre ++ render (secs1 ++ s :: secs2) := by
      intro l hl
      rcases List.mem_append.1 hl with h | h
      · exact List.mem_append_left _ h
      · exact List.mem_append_right _ (mem_render_filter _ _ _ l h)
    have hfit' : ∀ l ∈ pre ++ render (secs1.filter (fun t => decide (keyword t.marker ≠ k))) ++
        [s.marker], utf8Len l < MaxScanTokenSize := by
      intro l hl
      apply hfit
      rcases List.mem_append.1 hl with h | h
      · rcases List.mem_append.1 h with h | h
        · simp [h]
        · have := mem_render_filter (fun t => decide (keyword t.marker ≠ k)) secs1 [] l
            (by simpa using h)
          simp only [List.append_nil] at this
          simp [this]
      · simp [List.mem_singleton.1 h]
    have hrem := parseBody_sections_read pre _ secs2 secs2' s c' htail
      (fun l hl => hnl l (hmem l hl)) hfit' hpre
      (hwf' _ (fun t ht => hwf1 t (List.mem_filter.1 ht).1))
    rw [horig, hrem]
    obtain ⟨st, hst, hiff⟩ : ∃ st, (st = .stateReadQuestion ∨ st = .stateReadExplain ∨
        st = .stateReadPage ∨ (st = .stateReadAnswer ∧ k = "answer".toList)) ∧
        ∀ k', nextState k' = some st ↔ k' = k := by
      rcases hk with rfl | rfl | rfl | rfl
      · exact ⟨_, Or.inl rfl, nextState_question⟩
      · exact ⟨_, Or.inr (Or.inr (Or.inr ⟨rfl, rfl⟩)), nextState_answer⟩
      · exact ⟨_, Or.inr (Or.inl rfl), nextState_explain⟩
      · exact ⟨_, Or.inr (Or.inr (Or.inl rfl)), nextState_page⟩
    have hp : ∀ t : Section, (!heads st t) = decide (keyword t.marker ≠ k) := by
      intro t
      by_cases h : keyword t.marker = k
      · have h' : nextState (keyword t.marker) = some st := (hiff _).2 h
        have e1 : heads st t = true := by simp only [heads, h', decide_True]
        rw [e1]
        simp [h]
      · have : nextState (keyword t.marker) ≠ some st := fun e => h ((hiff _).1 e)
        simp [heads, h, this]
    have hfil : secs1.filter (fun t => decide (keyword t.marker ≠ k)) =
        secs1.filter (fun t => !heads st t) := by
      apply List.filter_congr
      intro t _
      exact (hp t).symm
    rw [hfil]
    apply commitAll_filter_earlier
    · have : heads st ⟨s.marker, c'⟩ = true := by
        simp only [heads, (hiff _).2 hs, decide_True]
      simp [this]
    · intro t ht hh q
      have hks : keyword t.marker = k := by
        have := hp t
        rw [hh] at this
        simpa using this.symm
      apply commitSection_singular st t q ((hiff _).2 hks)
      rcases hst with h | h | h | ⟨h, hka⟩
      · exact Or.inl h
      · exact Or.inr (Or.inl h)
      · exact Or.inr (Or.inr (Or.inl h))
      · refine Or.inr (Or.inr (Or.inr ⟨h, ?_⟩))
        obtain ⟨n, hd, hf⟩ := hans hka t ht hks
        exact ⟨n, Atoi_of_DecimalForm _ n hd hf⟩
  · intro t ht hkt hbad
    rw [horig]
    obtain ⟨X, Y, rfl⟩ := List.append_of_mem ht
    rw [List.append_assoc, commitAll_append]
    cases commitAll X {} with
    | error e => exact ⟨e, rfl⟩
    | ok q =>
      have hA : Atoi (accumulated t.content) = none := by
        cases hA : Atoi (accumulated t.content) with
        | none => rfl
        | some n => exact absurd ⟨n, DecimalForm_of_Atoi _ n hA⟩ hbad
      simp only [List.cons_append, commitAll, commitSection, (nextState_answer _).2 hkt,
        Question.set, hA]
      exact ⟨_, rfl⟩

theorem overwrite_probe_nl :
    ∀ l ∈ ["free text".toList] ++ render ([(⟨"### question".toList, ["old".toList]⟩ : Section),
      ⟨"### option".toList, ["a".toList]⟩] ++ ⟨"### question".toList, ["new".toList]⟩ ::
      [⟨"### explain".toList, [longLine]⟩]), '\n' ∉ l := by
  intro l hl
  have h : ["free text".toList] ++ render ([(⟨"### question".toList, ["old".toList]⟩ : Section),
      ⟨"### option".toList, ["a".toList]⟩] ++ ⟨"### question".toList, ["new".toList]⟩ ::
      [⟨"### explain".toList, [longLine]⟩]) =
      ["free text".toList, "### question".toList, "old".toList, "### option".toList,
        "a".toList, "### question".toList, "new".toList, "### explain".toList, longLine] := rfl
  rw [h] at hl
  simp only [List.mem_cons, List.mem_singleton, List.not_mem_nil, or_false] at hl
  rcases hl with rfl | rfl | rfl | rfl | rfl | rfl | rfl | rfl | rfl
  · decide
  · decide
  · decide
  · decide
  · decide
  · decide
  · decide
  · decide
  · exact not_mem_longLine

theorem overwrite_probe_wf :
    WellFormed ([(⟨"### question".toList, ["old".toList]⟩ : Section),
      ⟨"### option".toList, ["a".toList]⟩] ++ ⟨"### question".toList, ["new".toList]⟩ ::
      [⟨"### explain".toList, [longLine]⟩]) := by
  intro t ht
  simp only [List.cons_append, List.nil_append, List.mem_cons, List.mem_singleton,
    List.not_mem_nil, or_false] at ht
  rcases ht with rfl | rfl | rfl | rfl
  · decide
  · decide
  · decide
  · refine ⟨by decide, fun l hl => ?_⟩
    have : l = longLine := by simpa using hl
    subst this
    unfold isMarker
    rw [TrimSpace_longLine]
    rfl

/-- Witness for C9: two question sections around an option section, followed by
an explain section whose content line does not fit the scanner's buffer. -/
theorem parseBody_overwrite_witness :
    parseBody (joinLines (["free text".toList] ++
      render ([⟨"### question".toList, ["old".toList]⟩, ⟨"### option".toList, ["a".toList]⟩] ++
        ⟨"### question".toList, ["new".toList]⟩ :: [⟨"### explain".toList, [longLine]⟩]))) =
    parseBody (joinLines (["free text".toList] ++
      render (([⟨"### question".toList, ["old".toList]⟩, ⟨"### option".toList, ["a".toList]⟩] :
          List Section).filter (fun t => decide (keyword t.marker ≠ "question".toList)) ++
        ⟨"### question".toList, ["new".toList]⟩ :: [⟨"### explain".toList, [longLine]⟩]))) :=
  (parseBody_overwrite "question".toList ["free text".toList]
    [⟨"### question".toList, ["old".toList]⟩, ⟨"### option".toList, ["a".toList]⟩]
    [⟨"### explain".toList, [longLine]⟩] ⟨"### question".toList, ["new".toList]⟩
    (by decide) overwrite_probe_nl (by decide) (by decide) overwrite_probe_wf (by decide)).1
    (fun h => absurd h (by decide))

/-- Counterexample to C9 as stated: with two `### answer` sections, the first
with the value `yes`, `parseBody` fails, while for the body without the first
answer section it returns a record. -/
theorem earlier_answer_has_effect :
    parseBody (joinLines ([] ++ render ([⟨"### answer".toList, ["yes".toList]⟩] ++
        ⟨"### answer".toList, ["1".toList]⟩ :: []))) =
      .error (.failedSet .stateReadAnswer "yes".toList) ∧
    parseBody (joinLines ([] ++ render (([⟨"### answer".toList, ["yes".toList]⟩] :
          List Section).filter (fun t => decide (keyword t.marker ≠ "answer".toList)) ++
        ⟨"### answer".toList, ["1".toList]⟩ :: []))) =
      .ok { Answer := 1 } := by
  refine ⟨by rfl, by rfl⟩


/-! ## The update steps of `main` (C4, C5, C6) -/

theorem lookupFile_storeFile (files : List (List Char × List Char)) (path c c' : List Char)
    (h : lookupFile files path = some c) :
    lookupFile (storeFile files path c') path = some c' := by
  induction files with
  | nil => simp [lookupFile] at h
  | cons e rest ih =>
    obtain ⟨p, d⟩ := e
    by_cases hp : p = path
    · simp [lookupFile, storeFile, hp]
    · simp only [lookupFile, hp, if_false] at h
      simp [lookupFile, storeFile, hp, ih h]

theorem writeAt_nil (offset : Nat) (data : List Char) :
    writeAt [] offset data = List.replicate offset '\x00' ++ data := by
  simp [writeAt]

theorem checkToken_files (env : Env) (w : World) :
    (checkToken env w).files = w.files ∧ (checkToken env w).outbound = w.outbound := by
  unfold checkToken
  split <;> exact ⟨rfl, rfl⟩

theorem main_eq_update (env : Env) (w : World) (issue : IssuesEvent)
    (hci : env.CI = true) (hev : env.eventIsIssues = true) (hi : env.getIssues = some issue)
    (ha : issue.action = "labeled".toList) (hl : issue.label = "approved".toList) :
    main env w = update env issue (checkToken env w) := by
  unfold main
  rw [hi]
  simp only [hci, hev, ha, hl, ne_eq, not_true_eq_false, if_false, Bool.true_eq_false]

theorem update_open_fails (env : Env) (issue : IssuesEvent) (w : World) (newQ : Question)
    (hp : parseBody issue.body = .ok newQ)
    (h : lookupFile w.files (newQ.page ++ ".json".toList) = none) :
    update env issue w = fail issue w (.openFile (newQ.page ++ ".json".toList)) := by
  unfold update
  simp only [hp, h]

theorem update_decode_fails (env : Env) (issue : IssuesEvent) (w : World) (newQ : Question)
    (c : List Char) (hp : parseBody issue.body = .ok newQ)
    (h : lookupFile w.files (newQ.page ++ ".json".toList) = some c)
    (hd : env.decode c = none) :
    update env issue w = fail issue w (.decode (newQ.page ++ ".json".toList)) := by
  unfold update
  simp only [hp, h, hd]

/-- After the encoding step of `update` the files are those of the start with
the file of the page rewritten at the offset the decoder left. -/
theorem update_files (env : Env) (issue : IssuesEvent) (w : World) (newQ : Question)
    (contents : List Char) (decoded : List Question) (offset : Nat)
    (hp : parseBody issue.body = .ok newQ)
    (hfile : lookupFile w.files (newQ.page ++ ".json".toList) = some contents)
    (hdec : env.decode contents = some (decoded, offset))
    (htr : env.truncateOk = true) (hen : env.encodeOk = true) :
    (update env issue w).1.files =
      storeFile (storeFile w.files (newQ.page ++ ".json".toList) [])
        (newQ.page ++ ".json".toList) (writeAt [] offset (env.encode (decoded ++ [newQ]))) := by
  unfold update
  simp only [hp, hfile, hdec, htr, hen, Bool.true_eq_false, if_false]
  by_cases h3 : env.gitConfigOk = false
  · rw [if_pos h3]
    rfl
  · rw [if_neg h3]
    by_cases h4 : env.gitCommitPushOk = false
    · rw [if_pos h4]
      rfl
    · rw [if_neg h4]
      by_cases h5 : env.issuesEditOk = false
      · rw [if_pos h5]
        rfl
      · rw [if_neg h5]

theorem main_gate_logs (env : Env) (w : World) (issue : IssuesEvent)
    (hi : env.getIssues = some issue)
    (hg : issue.action ≠ "labeled".toList ∨ issue.label ≠ "approved".toList) :
    ∃ l, main env w = ({ w with logs := l }, 0) := by
  have hw : ∀ l, ∃ l', ({ checkToken env w with logs := (checkToken env w).logs ++ l } : World) =
      { w with logs := l' } := by
    intro l
    unfold checkToken
    split <;> exact ⟨_, rfl⟩
  unfold main
  rw [hi]
  dsimp only
  by_cases hci : env.CI = false
  · rw [if_pos hci]
    exact ⟨_, rfl⟩
  · rw [if_neg hci]
    by_cases hev : env.eventIsIssues = false
    · rw [if_pos hev]
      exact ⟨_, rfl⟩
    · rw [if_neg hev]
      by_cases ha : issue.action ≠ "labeled".toList
      · rw [if_pos ha]
        obtain ⟨l', h⟩ := hw [.debugIgnoreAction issue.action]
        exact ⟨l', by rw [h]⟩
      · have hl : issue.label ≠ "approved".toList := by
          rcases hg with h | h
          · exact absurd h ha
          · exact h
        rw [if_neg ha, if_pos hl]
        obtain ⟨l', h⟩ := hw [.debugIgnoreLabel issue.label]
        exact ⟨l', by rw [h]⟩

theorem main_gate_body (env : Env) (w : World) (issue : IssuesEvent) (body : List Char)
    (hi : env.getIssues = some issue)
    (hg : issue.action ≠ "labeled".toList ∨ issue.label ≠ "approved".toList) :
    main { env with getIssues := some { issue with body := body } } w = main env w := by
  unfold main
  rw [hi]
  dsimp only
  by_cases hci : env.CI = false
  · rw [if_pos hci, if_pos hci]
  · rw [if_neg hci, if_neg hci]
    by_cases hev : env.eventIsIssues = false
    · rw [if_pos hev, if_pos hev]
    · rw [if_neg hev, if_neg hev]
      by_cases ha : issue.action ≠ "labeled".toList
      · rw [if_pos ha, if_pos ha]
        rfl
      · have hl : issue.label ≠ "approved".toList := by
          rcases hg with h | h
          · exact absurd h ha
          · exact h
        rw [if_neg ha, if_neg ha, if_pos hl, if_pos hl]
        rfl

/-- C6: for every issue event whose action is not `labeled`, or whose label is
not `approved`, `main` returns (status 0) with the files and the outbound
calls as they were: no collection file is opened or modified, nothing is
commented, pushed or closed; and the run is the same whatever the body of the
issue is, so the body is not parsed. -/
theorem main_gate_noop (env : Env) (w : World) (issue : IssuesEvent)
    (hi : env.getIssues = some issue)
    (hg : issue.action ≠ "labeled".toList ∨ issue.label ≠ "approved".toList) :
    (main env w).1.files = w.files ∧ (main env w).1.outbound = w.outbound ∧
    (main env w).2 = 0 ∧
    ∀ body, main { env with getIssues := some { issue with body := body } } w = main env w := by
  obtain ⟨l, hl⟩ := main_gate_logs env w issue hi hg
  rw [hl]
  refine ⟨rfl, rfl, rfl, fun body => ?_⟩
  rw [← hl]
  exact main_gate_body env w issue body hi hg

/-- Witness for C6: an issue that was opened, with a body that would parse. -/
theorem main_gate_noop_witness :
    (main (sampleEnv openedIssue) sampleWorld).1.files = sampleWorld.files ∧
    (main (sampleEnv openedIssue) sampleWorld).1.outbound = sampleWorld.outbound ∧
    (main (sampleEnv openedIssue) sampleWorld).2 = 0 ∧
    ∀ body, main { sampleEnv openedIssue with
        getIssues := some { openedIssue with body := body } } sampleWorld =
      main (sampleEnv openedIssue) sampleWorld :=
  main_gate_noop (sampleEnv openedIssue) sampleWorld openedIssue rfl (Or.inl (by decide))

/-- C5: for every parsed record, when the file `<page>.json` does not exist, or
exists with contents the decoder rejects, `main` posts one comment with the
failure on the issue and exits with status 1, and the files are exactly what
they were: a missing file is not created and no contents change; nothing is
pushed and the issue is not closed. -/
theorem main_storage_precondition (env : Env) (w : World) (issue : IssuesEvent)
    (newQ : Question)
    (hci : env.CI = true) (hev : env.eventIsIssues = true) (hi : env.getIssues = some issue)
    (ha : issue.action = "labeled".toList) (hl : issue.label = "approved".toList)
    (hp : parseBody issue.body = .ok newQ)
    (hbad : lookupFile w.files (newQ.page ++ ".json".toList) = none ∨
      ∃ c, lookupFile w.files (newQ.page ++ ".json".toList) = some c ∧ env.decode c = none) :
    (main env w).1.files = w.files ∧ (main env w).2 = 1 ∧
    ∃ f, (main env w).1.outbound = w.outbound ++ [.comment issue.number f] := by
  rw [main_eq_update env w issue hci hev hi ha hl]
  have hw := checkToken_files env w
  have hfail : ∀ f, (fail issue (checkToken env w) f).1.files = w.files ∧
      (fail issue (checkToken env w) f).2 = 1 ∧
      ∃ g, (fail issue (checkToken env w) f).1.outbound =
        w.outbound ++ [.comment issue.number g] := by
    intro f
    refine ⟨hw.1, rfl, f, ?_⟩
    show (checkToken env w).outbound ++ _ = _
    rw [hw.2]
  rcases hbad with h | ⟨c, h, hd⟩
  · rw [update_open_fails env issue _ newQ hp (by rw [hw.1]; exact h)]
    exact hfail _
  · rw [update_decode_fails env issue _ newQ c hp (by rw [hw.1]; exact h) hd]
    exact hfail _

/-- Witness for C5: the page `exam` when there is no file at all. -/
theorem main_storage_precondition_witness :
    (main (sampleEnv labeledIssue) ⟨[], [], []⟩).1.files = [] ∧
    (main (sampleEnv labeledIssue) ⟨[], [], []⟩).2 = 1 ∧
    ∃ f, (main (sampleEnv labeledIssue) ⟨[], [], []⟩).1.outbound =
      [] ++ [.comment labeledIssue.number f] :=
  main_storage_precondition (sampleEnv labeledIssue) ⟨[], [], []⟩ labeledIssue labeledRecord
    rfl rfl rfl rfl rfl (by rfl) (Or.inl (by rfl))

/-- C4 on the code: when the steps open, decode, append, `Truncate(0)` and
encode all succeed, the file afterwards consists of as many zero bytes as the
decoder had read, followed by the encoding of the old records and the new
one: `Truncate(0)` leaves the file offset where `Decode` left it and nothing
seeks back to the beginning. A JSON decoder that rejects a leading zero byte
rejects the file. -/
theorem main_update_leaves_hole (env : Env) (w : World) (issue : IssuesEvent)
    (newQ : Question) (contents : List Char) (decoded : List Question) (offset : Nat)
    (hci : env.CI = true) (hev : env.eventIsIssues = true) (hi : env.getIssues = some issue)
    (ha : issue.action = "labeled".toList) (hl : issue.label = "approved".toList)
    (hp : parseBody issue.body = .ok newQ)
    (hfile : lookupFile w.files (newQ.page ++ ".json".toList) = some contents)
    (hdec : env.decode contents = some (decoded, offset)) (hpos : 0 < offset)
    (htr : env.truncateOk = true) (hen : env.encodeOk = true)
    (hnul : ∀ bs, env.decode ('\x00' :: bs) = none) :
    lookupFile (main env w).1.files (newQ.page ++ ".json".toList) =
      some (List.replicate offset '\x00' ++ env.encode (decoded ++ [newQ])) ∧
    env.decode (List.replicate offset '\x00' ++ env.encode (decoded ++ [newQ])) = none := by
  constructor
  · have h1 := lookupFile_storeFile w.files _ contents [] hfile
    have h2 := lookupFile_storeFile _ _ [] (writeAt [] offset (env.encode (decoded ++ [newQ]))) h1
    rw [writeAt_nil] at h2
    rw [main_eq_update env w issue hci hev hi ha hl]
    have hw := checkToken_files env w
    rw [update_files env issue _ newQ contents decoded offset hp (by rw [hw.1]; exact hfile)
      hdec htr hen, hw.1, writeAt_nil]
    exact h2
  · obtain ⟨n, rfl⟩ := Nat.exists_eq_succ_of_ne_zero (Nat.pos_iff_ne_zero.1 hpos)
    rw [List.replicate_succ, List.cons_append]
    exact hnul _

/-- The run of C4 evaluated: the file `exam.json` holds `[]`, the issue is
labeled `approved` and its body has the page `exam`; every step succeeds, and
the file then starts with two zero bytes, which the decoder rejects. -/
theorem main_update_leaves_hole_witness :
    lookupFile (main (sampleEnv labeledIssue) sampleWorld).1.files
        (labeledRecord.page ++ ".json".toList) =
      some (List.replicate 2 '\x00' ++
        (sampleEnv labeledIssue).encode ([] ++ [labeledRecord])) ∧
    (sampleEnv labeledIssue).decode (List.replicate 2 '\x00' ++
        (sampleEnv labeledIssue).encode ([] ++ [labeledRecord])) = none :=
  main_update_leaves_hole (sampleEnv labeledIssue) sampleWorld labeledIssue labeledRecord
    "[]".toList [] 2 rfl rfl rfl rfl rfl (by rfl) (by rfl) (by rfl) (by decide) rfl rfl
    (fun bs => by
      have h : ('\x00' :: bs) ≠ "[]".toList := by
        intro e
        exact absurd (List.cons.inj e).1 (by decide)
      simp only [sampleEnv, h, if_false])

end Learn
